import Mathlib

/-!
Verification development for the kvstore log-structured key-value engine
(src/lib.rs, src/err.rs).  The Rust source is shallowly embedded: strings
are lists of characters, the directory owned by the store is a finite map
from segment ids to file contents plus an optional staging file
"not_commit.dat", and each public operation of KvStore is translated into
a pure Lean function over an explicit store state and file-system state.
The serde_json record codec is embedded as a concrete self-delimiting
textual codec with the same structure as the JSON encoding the source
uses ("Set" and "Rm" externally tagged variants, escaped string fields),
together with a streaming decoder that reports byte offsets, mirroring
serde_json's StreamDeserializer::byte_offset which load_data relies on.
-/

set_option maxHeartbeats 1600000

abbrev Str := List Char

/-- Association-list lookup, standing in for HashMap::get. -/
def lookupA {κ α : Type} [DecidableEq κ] : List (κ × α) → κ → Option α
  | [], _ => none
  | (k, a) :: rest, q => if q = k then some a else lookupA rest q

/-- Association-list insert, standing in for HashMap::insert: replaces the
binding in place when the key is present, otherwise appends. -/
def insertA {κ α : Type} [DecidableEq κ] : List (κ × α) → κ → α → List (κ × α)
  | [], q, v => [(q, v)]
  | (k, a) :: rest, q, v => if q = k then (q, v) :: rest else (k, a) :: insertA rest q v

/-- Association-list removal, standing in for HashMap::remove (on the maps the
store builds, keys are unique, so removing every binding of the key is the
same as removing the one binding). -/
def eraseA {κ α : Type} [DecidableEq κ] (l : List (κ × α)) (q : κ) : List (κ × α) :=
  l.filter (fun p => decide (p.1 ≠ q))

/-- Record type of the engine: Operation::Set(key, value) and Operation::Rm(key)
from src/lib.rs. -/
inductive Operation : Type where
  | Set (key value : Str)
  | Rm (key : Str)
deriving DecidableEq, Repr

/-- String escaping of the JSON codec: quote and backslash characters are
preceded by a backslash (the structural core of serde_json string escaping). -/
def escape : Str → Str
  | [] => []
  | c :: rest => if c = '"' ∨ c = '\\' then '\\' :: c :: escape rest else c :: escape rest

/-- Serialization of one record, mirroring serde_json::to_string on Operation:
Set(k, v) becomes \x7b"Set":["k","v"]\x7d and Rm(k) becomes \x7b"Rm":"k"\x7d. -/
def encodeOp : Operation → Str
  | .Set k v =>
      ['\x7b', '"', 'S', 'e', 't', '"', ':', '[', '"'] ++ escape k ++ ['"', ',', '"'] ++
        escape v ++ ['"', ']', '\x7d']
  | .Rm k => ['\x7b', '"', 'R', 'm', '"', ':', '"'] ++ escape k ++ ['"', '\x7d']

/-- Parser for the body of a JSON string up to and including the closing quote.
Returns the unescaped content, the number of characters consumed, and the
remaining input. -/
def parseStringBody : Str → Option (Str × Nat × Str)
  | [] => none
  | '"' :: rest => some ([], 1, rest)
  | '\\' :: [] => none
  | '\\' :: d :: rest2 =>
    match parseStringBody rest2 with
    | some (s, n, r) => some (d :: s, n + 2, r)
    | none => none
  | c :: rest =>
    match parseStringBody rest with
    | some (s, n, r) => some (c :: s, n + 1, r)
    | none => none

/-- Streaming decoder for one record, mirroring one step of serde_json's
StreamDeserializer on the Operation enum: returns the decoded record, the
number of characters consumed, and the remaining input, or none when the
input does not start with a complete record. -/
def decodeOne : Str → Option (Operation × Nat × Str)
  | '\x7b' :: '"' :: 'S' :: 'e' :: 't' :: '"' :: ':' :: '[' :: '"' :: rest =>
    match parseStringBody rest with
    | some (k, n1, r1) =>
      match r1 with
      | ',' :: '"' :: r2 =>
        match parseStringBody r2 with
        | some (v, n2, r3) =>
          match r3 with
          | ']' :: '\x7d' :: r4 => some (.Set k v, 9 + n1 + 2 + n2 + 2, r4)
          | _ => none
        | none => none
      | _ => none
    | none => none
  | '\x7b' :: '"' :: 'R' :: 'm' :: '"' :: ':' :: '"' :: rest =>
    match parseStringBody rest with
    | some (k, n1, r1) =>
      match r1 with
      | '\x7d' :: r2 => some (.Rm k, 7 + n1 + 1, r2)
      | _ => none
    | none => none
  | _ => none

/-- Record together with its serialized byte length inside a file. -/
abbrev Rec := Operation × Nat

/-- Fueled decoder of a whole stream of records; the fuel only serves to make
the recursion structural, and a fuel of at least the input length is always
enough. -/
def decodeAllF : Nat → Str → Option (List Rec)
  | _, [] => some []
  | 0, _ :: _ => none
  | fuel + 1, c :: rest =>
    match decodeOne (c :: rest) with
    | none => none
    | some (op, n, r) => (decodeAllF fuel r).map (fun l => (op, n) :: l)

/-- Decoder for a whole stream of records: the list of decoded records with
their lengths, or none when the stream has a malformed or truncated tail. -/
def decodeAllR (s : Str) : Option (List Rec) := decodeAllF s.length s

/-- Concatenation of the encodings of a list of records, the shape of any file
content produced purely by appends of encoded records. -/
def encJoin (ops : List Operation) : Str := (ops.map encodeOp).flatten

/-- Records of a list of operations paired with their encoded lengths. -/
def recsOf (ops : List Operation) : List Rec :=
  ops.map (fun op => (op, (encodeOp op).length))

/-- Constant SINGLE_LOG_SIZE from src/lib.rs (1 MiB). -/
def SINGLE_LOG_SIZE : Nat := 1024 * 1024

/-- Constant COMPACT_THRESHOLD from src/lib.rs (1 MiB). -/
def COMPACT_THRESHOLD : Nat := 1024 * 1024

/-- Location of a record on disk (struct Pointer in src/lib.rs). -/
structure Pointer where
  fid : Nat
  start : Nat
  len : Nat
deriving DecidableEq, Repr

/-- Target of an open file handle: a numbered segment file fid.log, or the
staging file not_commit.dat. -/
inductive Target : Type where
  | log (fid : Nat)
  | staging
deriving DecidableEq, Repr

/-- Directory owned by the store: the contents of the numbered .log segment
files, and the content of not_commit.dat when that file exists. -/
structure FS where
  logs : List (Nat × Str)
  staging : Option Str
deriving DecidableEq, Repr

/-- Current content of the file a handle refers to. -/
def FS.readTarget (fs : FS) : Target → Str
  | .log n => (lookupA fs.logs n).getD []
  | .staging => fs.staging.getD []

/-- Append of data through a handle opened in append mode: the bytes land at
the current end of the file, whatever the writer position says. -/
def FS.writeTarget (fs : FS) (t : Target) (data : Str) : FS :=
  match t with
  | .log n => { fs with logs := insertA fs.logs n ((lookupA fs.logs n).getD [] ++ data) }
  | .staging => { fs with staging := some (fs.staging.getD [] ++ data) }

/-- Buffered writer over the active segment (struct BufWriter in src/lib.rs):
its target file and pos, the number of bytes written through this writer
instance; pos starts at 0 when a writer is created, regardless of the length
of the underlying file. -/
structure BufWriter where
  target : Target
  pos : Nat
deriving DecidableEq, Repr

/-- Error type KvError from src/err.rs; the payloads of the IO and Serde
variants are dropped. -/
inductive KvError : Type where
  | IOErr
  | KeyNotFound
  | UnKnownCommand
  | Serde
deriving DecidableEq, Repr

/-- Store state (struct KvStore in src/lib.rs): the reader pool maps a file id
to the target its handle reads and the handle cursor; the file_path field is
dropped since a single directory is modelled. -/
structure KvStore where
  readers : List (Nat × Target × Nat)
  writer : BufWriter
  index : List (Str × Pointer)
  fid : Nat
  rubbish : Nat
deriving DecidableEq, Repr

/-- Fueled body of the replay loop of KvStore::load_data; a fuel of at least
the input length is always enough. -/
def loadDataF (fid : Nat) : Nat → Str → Nat → List (Str × Pointer) → Nat →
    Except KvError (List (Str × Pointer) × Nat)
  | _, [], _, index, acc => .ok (index, acc)
  | 0, _ :: _, _, _, _ => .error .Serde
  | fuel + 1, c :: rest, pos, index, acc =>
    match decodeOne (c :: rest) with
    | none => .error .Serde
    | some (op, n, r) =>
      match op with
      | .Set key _ =>
        match lookupA index key with
        | some old =>
          loadDataF fid fuel r (pos + n) (insertA index key ⟨fid, pos, n⟩) (acc + old.len)
        | none => loadDataF fid fuel r (pos + n) (insertA index key ⟨fid, pos, n⟩) acc
      | .Rm key =>
        match lookupA index key with
        | some old => loadDataF fid fuel r (pos + n) (eraseA index key) (acc + old.len + n)
        | none => loadDataF fid fuel r (pos + n) (eraseA index key) (acc + n)

/-- Replay of one file (KvStore::load_data): iterate the record stream from
offset 0, inserting a location for each Set, removing the key for each Rm,
and accumulating rubbish; the first decode failure aborts with Serde, and
end of input returns the accumulated rubbish. -/
def loadData (fid : Nat) (content : Str) (index : List (Str × Pointer)) :
    Except KvError (List (Str × Pointer) × Nat) :=
  loadDataF fid content.length content 0 index 0

/-- One step of the record-level view of the replay loop, acting on the state
(index, position, rubbish accumulator). -/
def replayRec (fid : Nat) (st : List (Str × Pointer) × Nat × Nat) (r : Rec) :
    List (Str × Pointer) × Nat × Nat :=
  match r with
  | (.Set key _, n) =>
    (insertA st.1 key ⟨fid, st.2.1, n⟩, st.2.1 + n,
      st.2.2 + (match lookupA st.1 key with | some old => old.len | none => 0))
  | (.Rm key, n) =>
    (eraseA st.1 key, st.2.1 + n,
      st.2.2 + (match lookupA st.1 key with | some old => old.len | none => 0) + n)

/-- Record-level view of the whole replay loop. -/
def replayRecs (fid : Nat) (st : List (Str × Pointer) × Nat × Nat) (rs : List Rec) :
    List (Str × Pointer) × Nat × Nat :=
  rs.foldl (replayRec fid) st

/-- Creation of a new active segment (KvStore::new_log_file): open fid.log in
create+append mode (existing content is preserved, a missing file is created
empty), make a fresh writer with pos 0 over it, and insert a reader for the
file into the pool. -/
def newLogFile (fid : Nat) (fs : FS) (readers : List (Nat × Target × Nat)) :
    BufWriter × FS × List (Nat × Target × Nat) :=
  let fs2 := match lookupA fs.logs fid with
    | some _ => fs
    | none => { fs with logs := insertA fs.logs fid [] }
  (⟨Target.log fid, 0⟩, fs2, insertA readers fid (Target.log fid, 0))

/-- Ascending sort of the segment ids found in the directory
(KvStore::sort_log). -/
def sortIds (ids : List Nat) : List Nat := List.insertionSort (· ≤ ·) ids

/-- Segment ids of the directory in ascending order (KvStore::sort_log). -/
def sortLog (fs : FS) : List Nat := sortIds (fs.logs.map Prod.fst)

/-- Replay loop of KvStore::open over the sorted segment ids: open a reader
for each segment, replay its records into the shared index, and accumulate
rubbish across segments. -/
def openFold (fs : FS) : List Nat → List (Nat × Target × Nat) →
    List (Str × Pointer) → Nat →
    Except KvError (List (Nat × Target × Nat) × List (Str × Pointer) × Nat)
  | [], readers, index, rubbish => .ok (readers, index, rubbish)
  | i :: rest, readers, index, rubbish =>
    match lookupA fs.logs i with
    | none => .error .IOErr
    | some content =>
      match loadData i content index with
      | .error e => .error e
      | .ok (index2, r) =>
        openFold fs rest (insertA readers i (Target.log i, content.length)) index2 (rubbish + r)

/-- Crash recovery (KvStore::recover_from_crash): replay not_commit.dat as
segment 1 into a fresh index, install its reader under id 1, and create
segment 2 as the new active segment; pre-existing .log files are not read. -/
def recoverFromCrash (fs : FS) : Except KvError (KvStore × FS) :=
  match fs.staging with
  | none => .error .IOErr
  | some content =>
    match loadData 1 content [] with
    | .error e => .error e
    | .ok (index, rubbish) =>
      let readers := insertA [] 1 (Target.staging, content.length)
      match newLogFile 2 fs readers with
      | (writer, fs2, readers2) =>
        .ok (⟨readers2, writer, index, 2, rubbish⟩, fs2)

/-- Store opening (KvStore::open): delegate to crash recovery when
not_commit.dat exists; otherwise replay every numbered segment in ascending
id order and create a fresh active segment with id one past the largest
replayed id (or id 1 when the directory holds no segment). -/
def KvStore.openStore (fs : FS) : Except KvError (KvStore × FS) :=
  match fs.staging with
  | some _ => recoverFromCrash fs
  | none =>
    match openFold fs (sortLog fs) [] [] 0 with
    | .error e => .error e
    | .ok (readers, index, rubbish) =>
      let lastId := (sortLog fs).getLast?.getD 0 + 1
      match newLogFile lastId fs readers with
      | (writer, fs2, readers2) =>
        .ok (⟨readers2, writer, index, lastId, rubbish⟩, fs2)

/-- Read of one key (KvStore::get): consult the index; on a hit, seek the
reader of the segment to the stored offset, read exactly len bytes, decode
them (a decode failure or trailing bytes inside the window fail with Serde,
as serde_json::from_reader does), return the value of a Set record, and fail
with UnKnownCommand on a decoded Rm; a missing reader fails with KeyNotFound.
Only reader cursors are mutated, and nothing is written. -/
def KvStore.get (s : KvStore) (fs : FS) (key : Str) :
    Except KvError (Option Str) × KvStore :=
  match lookupA s.index key with
  | none => (.ok none, s)
  | some ptr =>
    match lookupA s.readers ptr.fid with
    | none => (.error .KeyNotFound, s)
    | some (tgt, _) =>
      let content := fs.readTarget tgt
      let slice := (content.drop ptr.start).take ptr.len
      let s2 : KvStore :=
        { s with readers := insertA s.readers ptr.fid (tgt, ptr.start + slice.length) }
      match decodeOne slice with
      | none => (.error .Serde, s2)
      | some (op, _, r) =>
        if r.isEmpty then
          match op with
          | .Set _ value => (.ok (some value), s2)
          | .Rm _ => (.error .UnKnownCommand, s2)
        else (.error .Serde, s2)

/-- Removal with the outcome of the tombstone append made explicit (wok =
false injects an IO failure at the writer.write call); the key is removed
from the index and the old record length added to rubbish before the append
is attempted, and these effects are not rolled back on failure. -/
def KvStore.removeW (s : KvStore) (fs : FS) (key : Str) (wok : Bool) :
    Except KvError Unit × KvStore × FS :=
  match lookupA s.index key with
  | none => (.error .KeyNotFound, s, fs)
  | some old =>
    let s2 : KvStore := { s with index := eraseA s.index key, rubbish := s.rubbish + old.len }
    if wok then
      let data := encodeOp (.Rm key)
      let fs2 := fs.writeTarget s2.writer.target data
      let s3 : KvStore :=
        { s2 with
            writer := ⟨s2.writer.target, s2.writer.pos + data.length⟩
            rubbish := s2.rubbish + data.length }
      (.ok (), s3, fs2)
    else (.error .IOErr, s2, fs)

/-- Removal of one key (KvStore::remove): remove the index entry, account the
removed location and the appended tombstone as rubbish, and append an Rm
record through the writer; fails with KeyNotFound when the key is absent. -/
def KvStore.remove (s : KvStore) (fs : FS) (key : Str) :
    Except KvError Unit × KvStore × FS :=
  s.removeW fs key true

/-- Materialization loop of KvStore::compact: read the current value of every
index key through get, collecting the pairs in a temporary map; a get error
aborts with that error. -/
def materialize (fs : FS) : KvStore → List Str → List (Str × Str) →
    Except KvError (List (Str × Str)) × KvStore
  | s, [], temp => (.ok temp, s)
  | s, key :: rest, temp =>
    match s.get fs key with
    | (.ok (some v), s2) => materialize fs s2 rest (insertA temp key v)
    | (.ok none, s2) => materialize fs s2 rest temp
    | (.error e, s2) => (.error e, s2)

/-- Staging write loop of KvStore::compact: append one Set record per live
pair to the staging content, recording a location with segment id 1 whose
offset is the running pos counter, which starts at 0 even when the staging
file already had content. -/
def writeStagingGo : List (Str × Str) → Str → Nat → List (Str × Pointer) →
    Str × List (Str × Pointer)
  | [], content, _, idx => (content, idx)
  | (k, v) :: rest, content, pos, idx =>
    let data := encodeOp (.Set k v)
    writeStagingGo rest (content ++ data) (pos + data.length)
      (insertA idx k ⟨1, pos, data.length⟩)

/-- Deletion loop of KvStore::compact: remove fid.log for every reader pool
id; std::fs::remove_file fails with an IO error when the file is missing. -/
def deleteLogs : List Nat → FS → Except KvError Unit × FS
  | [], fs => (.ok (), fs)
  | i :: rest, fs =>
    match lookupA fs.logs i with
    | none => (.error .IOErr, fs)
    | some _ => deleteLogs rest { fs with logs := eraseA fs.logs i }

/-- Compaction (KvStore::compact): materialize the live pairs through get,
open not_commit.dat with create+append (existing staging content is kept and
the new records land after it) and append one Set record per pair, rebuild
the index with segment id 1 and offsets from the pos counter, delete every
segment in the reader pool, rename the staging file to 1.log, rebuild the
reader pool with the single segment 1, and create segment 2 as the new
active segment, resetting rubbish to 0. -/
def KvStore.compact (s : KvStore) (fs : FS) : Except KvError Unit × KvStore × FS :=
  match materialize fs s (s.index.map Prod.fst) [] with
  | (.error e, s2) => (.error e, s2, fs)
  | (.ok temp, s2) =>
    let existing := fs.staging.getD []
    match writeStagingGo temp existing 0 [] with
    | (stContent, newIndex) =>
      let fs2 : FS := { fs with staging := some stContent }
      let s3 : KvStore := { s2 with index := newIndex }
      match deleteLogs (s3.readers.map Prod.fst) fs2 with
      | (.error e, fs3) => (.error e, s3, fs3)
      | (.ok _, fs3) =>
        match fs3.staging with
        | none => (.error .IOErr, s3, fs3)
        | some c =>
          let fs4 : FS := { logs := insertA fs3.logs 1 c, staging := none }
          let readers := insertA [] 1 (Target.log 1, 0)
          match newLogFile 2 fs4 readers with
          | (writer, fs5, readers2) =>
            (.ok (), ⟨readers2, writer, s3.index, 2, 0⟩, fs5)

/-- Write of one key (KvStore::set): append the encoded Set record through the
writer (the bytes land at the end of the target file), flush, insert the new
location computed from the pre-write writer position, add the length of any
overwritten location to rubbish, then run compaction when rubbish reaches
COMPACT_THRESHOLD, or else roll the active segment when the pre-write
position reaches SINGLE_LOG_SIZE. -/
def KvStore.set (s : KvStore) (fs : FS) (key value : Str) :
    Except KvError Unit × KvStore × FS :=
  let cur := s.writer.pos
  let data := encodeOp (Operation.Set key value)
  let fs2 := fs.writeTarget s.writer.target data
  let len := data.length
  let s2 : KvStore := { s with writer := ⟨s.writer.target, cur + len⟩ }
  let s3 : KvStore :=
    match lookupA s2.index key with
    | some old =>
      { s2 with
          index := insertA s2.index key ⟨s2.fid, cur, len⟩
          rubbish := s2.rubbish + old.len }
    | none => { s2 with index := insertA s2.index key ⟨s2.fid, cur, len⟩ }
  if COMPACT_THRESHOLD ≤ s3.rubbish then
    s3.compact fs2
  else if SINGLE_LOG_SIZE ≤ cur then
    match newLogFile (s3.fid + 1) fs2 s3.readers with
    | (writer, fs3, readers2) =>
      (.ok (), { s3 with fid := s3.fid + 1, writer := writer, readers := readers2 }, fs3)
  else (.ok (), s3, fs2)

/-- One mutating command of the public interface. -/
inductive Cmd : Type where
  | set (key value : Str)
  | rm (key : Str)
deriving DecidableEq, Repr

/-- Run of a sequence of mutating commands in which every command succeeds. -/
def runCmds : KvStore → FS → List Cmd → Except KvError (KvStore × FS)
  | s, fs, [] => .ok (s, fs)
  | s, fs, c :: rest =>
    match (match c with
      | .set k v => s.set fs k v
      | .rm k => s.remove fs k) with
    | (.ok _, s2, fs2) => runCmds s2 fs2 rest
    | (.error e, _, _) => .error e

/-- Logical effect of one record on the abstract key-value map. -/
def applyOp (m : List (Str × Str)) : Operation → List (Str × Str)
  | .Set k v => insertA m k v
  | .Rm k => eraseA m k

/-- Logical effect of a record stream on the abstract key-value map. -/
def applyRecs (m : List (Str × Str)) (rs : List Rec) : List (Str × Str) :=
  rs.foldl (fun m2 r => applyOp m2 r.1) m

/-- Records of one segment file, as decoded from its content. -/
def recsOfLog (fs : FS) (i : Nat) : List Rec :=
  (decodeAllR ((lookupA fs.logs i).getD [])).getD []

/-- Records of the whole directory in replay order (ascending segment id). -/
def allRecs (fs : FS) : List Rec :=
  ((sortLog fs).map (recsOfLog fs)).flatten

/-- Abstract key-value map denoted by the directory contents: the last-wins
effect of replaying every record of every segment in ascending id order. -/
def Mof (fs : FS) : List (Str × Str) := applyRecs [] (allRecs fs)

/-- Assertion that decoding exactly the len-byte window at offset start of the
content yields the given record and consumes the whole window. -/
def sliceDec (content : Str) (p : Pointer) (op : Operation) : Prop :=
  decodeOne ((content.drop p.start).take p.len) = some (op, p.len, [])

/-- Assertion that a pointer is good for key k and value v: its segment file
exists and its byte window decodes exactly to Set(k, v). -/
def GoodPtrV (fs : FS) (k : Str) (p : Pointer) (v : Str) : Prop :=
  ∃ content, lookupA fs.logs p.fid = some content ∧ sliceDec content p (.Set k v)

/-- Inductive well-formedness of a store state and its directory on the
normal, staging-free path: established by open on a staging-free directory
and preserved by every successful operation. -/
structure StoreInv (s : KvStore) (fs : FS) : Prop where
  staging : fs.staging = none
  writerTarget : s.writer.target = Target.log s.fid
  activeContent : ∃ ca, lookupA fs.logs s.fid = some ca ∧ s.writer.pos = ca.length
  readersLogs : ∀ i, (lookupA s.readers i).isSome = (lookupA fs.logs i).isSome
  readersTarget : ∀ i t c, lookupA s.readers i = some (t, c) → t = Target.log i
  readersNodup : (s.readers.map Prod.fst).Nodup
  logsWF : ∀ i content, lookupA fs.logs i = some content → (decodeAllR content).isSome
  fidMax : ∀ i, (lookupA fs.logs i).isSome = true → i ≤ s.fid
  nodupLogs : (fs.logs.map Prod.fst).Nodup
  indexGood : ∀ k p, lookupA s.index k = some p →
    ∃ v, GoodPtrV fs k p v ∧ lookupA (Mof fs) k = some v
  indexNone : ∀ k, lookupA s.index k = none → lookupA (Mof fs) k = none

/-- Directory exhibiting the C1 failure: a crash left not_commit.dat behind,
and stale segment files 1.log (empty) and 2.log (holding one old record)
also exist. -/
def c1Dir : FS :=
  { logs := [(1, []), (2, encodeOp (.Set ['z'] ['w']))],
    staging := some (encodeOp (.Set ['a'] ['b'])) }

/-- Run for C1: open the directory (crash recovery), perform one set, then
get the same key, returning the set result and the get result. -/
def c1Run : Option (Except KvError Unit × Except KvError (Option Str)) :=
  match KvStore.openStore c1Dir with
  | .error _ => none
  | .ok (s0, fs0) =>
    match s0.set fs0 ['k'] ['v'] with
    | (r1, s1, fs1) =>
      match s1.get fs1 ['k'] with
      | (r2, _) => some (r1, r2)

/-- Directory exhibiting the C6 failure: a crash left not_commit.dat behind
holding one record, and stale segment files 1.log and 2.log exist. -/
def c6Dir : FS :=
  { logs := [(1, []), (2, [])],
    staging := some (encodeOp (.Set ['a'] ['b', 'b'])) }

/-- Run for C6: open the directory (crash recovery), set the key to a new
value, then invoke compaction directly; return the set result, the compact
result, the rebuilt index entry, the final content of 1.log, and the result
of a get after compaction. -/
def c6Run : Option (Except KvError Unit × Except KvError Unit ×
    Option Pointer × Option Str × Except KvError (Option Str)) :=
  match KvStore.openStore c6Dir with
  | .error _ => none
  | .ok (s0, fs0) =>
    match s0.set fs0 ['a'] ['c'] with
    | (r1, s1, fs1) =>
      match s1.compact fs1 with
      | (r2, s2, fs2) =>
        match s2.get fs2 ['a'] with
        | (r3, _) =>
          some (r1, r2, lookupA s2.index ['a'], lookupA fs2.logs 1, r3)

/-- Store state produced by opening an empty directory. -/
def c2wS0 : KvStore := ⟨[(1, (Target.log 1, 0))], ⟨Target.log 1, 0⟩, [], 1, 0⟩

/-- Directory after opening an empty directory. -/
def c2wFS1 : FS := { logs := [(1, [])], staging := none }

/-- Store state after set("x","10"); set("y","20") on a fresh store. -/
def c2wS : KvStore :=
  ⟨[(1, (Target.log 1, 0))], ⟨Target.log 1, 36⟩,
    [(['x'], ⟨1, 0, 18⟩), (['y'], ⟨1, 18, 18⟩)], 1, 0⟩

/-- Directory after set("x","10"); set("y","20") on a fresh store. -/
def c2wFS : FS :=
  { logs := [(1, encodeOp (.Set ['x'] ['1', '0']) ++ encodeOp (.Set ['y'] ['2', '0']))],
    staging := none }

/-- Key mentioned by a record. -/
def opKey : Operation → Str
  | .Set k _ => k
  | .Rm k => k

def c3c : Str := encodeOp (.Set ['a'] ['b']) ++ encodeOp (.Set ['a'] ['c'])

def c3fs : FS := ⟨[], some c3c⟩

def c3rs : List Rec := [(Operation.Set ['a'] ['b'], 17), (Operation.Set ['a'] ['c'], 17)]

/-- Index consistency as the spec words it: every Index entry points at a
byte window in an existing segment file that decodes exactly to a Set record
for that key. -/
def IndexConsistent (s : KvStore) (fs : FS) : Prop :=
  ∀ k p, lookupA s.index k = some p →
    ∃ content v, lookupA fs.logs p.fid = some content ∧ sliceDec content p (.Set k v)

/-- Directory exhibiting the C4 failure: a crash left not_commit.dat behind
and a stale non-empty segment 2.log exists. -/
def c4Dir : FS :=
  { logs := [(1, []), (2, encodeOp (.Set ['z'] ['w']))],
    staging := some (encodeOp (.Set ['a'] ['b'])) }

/-- Content of 2.log after the set in the C4 run. -/
def c4content : Str := encodeOp (.Set ['z'] ['w']) ++ encodeOp (.Set ['k'] ['v'])

/-- Run for C4: open the directory (crash recovery), then set a fresh key. -/
def c4Run : Option (KvStore × FS) :=
  match KvStore.openStore c4Dir with
  | .error _ => none
  | .ok (s0, fs0) =>
    match s0.set fs0 ['k'] ['v'] with
    | (_, s1, fs1) => some (s1, fs1)

/-- Fresh store obtained by opening an empty directory, for the C4 witness. -/
def c4wS : KvStore := ⟨[(1, (Target.log 1, 0))], ⟨Target.log 1, 0⟩, [], 1, 0⟩

/-- Directory after opening an empty directory, for the C4 witness. -/
def c4wFS : FS := { logs := [(1, [])], staging := none }

/-- Directory exhibiting the C5 failure: the single segment 1.log holds one
clean record followed by the first 5 bytes of a second record. -/
def c5Dir : FS :=
  { logs := [(1, encodeOp (.Set ['a'] ['b']) ++ (encodeOp (.Set ['c'] ['d'])).take 5)],
    staging := none }

/-- Directory for the C5 witness: segment 3.log ends with a truncated
record. -/
def c5wDir : FS :=
  { logs := [(3, encJoin [.Set ['a'] ['b']] ++ (encodeOp (.Set ['c'] ['d'])).take 5)],
    staging := none }

/-- Fresh store obtained by opening an empty directory, for the C7 witness. -/
def c7wS : KvStore := ⟨[(1, (Target.log 1, 0))], ⟨Target.log 1, 0⟩, [], 1, 0⟩

/-- Directory after opening an empty directory, for the C7 witness. -/
def c7wFS : FS := { logs := [(1, [])], staging := none }

/-- Value of the single giant record of the C8 counterexample, sized so that
the record is exactly SINGLE_LOG_SIZE bytes long. -/
def c8bigv : Str := List.replicate (SINGLE_LOG_SIZE - 16) 'x'

/-- Content of segment 3.log in the C8 counterexample: one 1 MiB record. -/
def c8content : Str := encodeOp (.Set ['a'] c8bigv)

/-- Directory of the C8 counterexample. -/
def c8fs : FS := { logs := [(3, c8content)], staging := none }

/-- Store of the C8 counterexample: the writer sits exactly at
SINGLE_LOG_SIZE and the single index entry covers the whole 1 MiB record,
so overwriting it pushes rubbish to COMPACT_THRESHOLD. -/
def c8s : KvStore :=
  ⟨[(3, (Target.log 3, 0))], ⟨Target.log 3, SINGLE_LOG_SIZE⟩,
    [(['a'], ⟨3, 0, SINGLE_LOG_SIZE⟩)], 3, 0⟩

/-- Store for the C10 witness: one key present in the index. -/
def c10wS : KvStore :=
  ⟨[(1, (Target.log 1, 0))], ⟨Target.log 1, 17⟩, [(['a'], ⟨1, 0, 17⟩)], 1, 0⟩

/-- Directory for the C10 witness. -/
def c10wFS : FS := { logs := [(1, encodeOp (.Set ['a'] ['b']))], staging := none }

theorem lookupA_insertA_self {κ α : Type} [DecidableEq κ] (l : List (κ × α)) (k : κ) (v : α) :
    lookupA (insertA l k v) k = some v := by
  induction l with
  | nil => simp [insertA, lookupA]
  | cons p rest ih =>
    obtain ⟨pk, pv⟩ := p
    by_cases h : k = pk
    · simp [insertA, lookupA, h]
    · simp [insertA, lookupA, h, ih]

theorem lookupA_insertA_ne {κ α : Type} [DecidableEq κ] (l : List (κ × α)) (k q : κ) (v : α)
    (h : q ≠ k) : lookupA (insertA l k v) q = lookupA l q := by
  induction l with
  | nil => simp [insertA, lookupA, h]
  | cons p rest ih =>
    obtain ⟨pk, pv⟩ := p
    by_cases h2 : k = pk
    · subst h2
      simp [insertA, lookupA, h]
    · by_cases h3 : q = pk
      · simp [insertA, lookupA, h2, h3]
      · simp [insertA, lookupA, h2, h3, ih]

theorem eraseA_cons {κ α : Type} [DecidableEq κ] (pk : κ) (pv : α) (rest : List (κ × α))
    (q : κ) : eraseA ((pk, pv) :: rest) q =
      if pk = q then eraseA rest q else (pk, pv) :: eraseA rest q := by
  by_cases h : pk = q
  · simp [eraseA, List.filter_cons, h]
  · simp [eraseA, List.filter_cons, h]

theorem lookupA_eraseA_self {κ α : Type} [DecidableEq κ] (l : List (κ × α)) (q : κ) :
    lookupA (eraseA l q) q = none := by
  induction l with
  | nil => simp [eraseA, lookupA]
  | cons p rest ih =>
    obtain ⟨pk, pv⟩ := p
    rw [eraseA_cons]
    by_cases h : pk = q
    · simpa [h] using ih
    · have hqp : ¬q = pk := fun hq => h hq.symm
      simp [h, lookupA, hqp, ih]

theorem lookupA_eraseA_ne {κ α : Type} [DecidableEq κ] (l : List (κ × α)) (k q : κ)
    (h : q ≠ k) : lookupA (eraseA l k) q = lookupA l q := by
  induction l with
  | nil => simp [eraseA, lookupA]
  | cons p rest ih =>
    obtain ⟨pk, pv⟩ := p
    rw [eraseA_cons]
    by_cases h2 : pk = k
    · subst h2
      simp [lookupA, h, ih]
    · by_cases h3 : q = pk
      · simp [h2, lookupA, h3]
      · simp [h2, lookupA, h3, ih]

theorem lookupA_some_mem {κ α : Type} [DecidableEq κ] (l : List (κ × α)) (k : κ) (v : α)
    (h : lookupA l k = some v) : k ∈ l.map Prod.fst := by
  induction l with
  | nil => simp [lookupA] at h
  | cons p rest ih =>
    obtain ⟨pk, pv⟩ := p
    by_cases h2 : k = pk
    · simp [h2]
    · simp only [lookupA, if_neg h2] at h
      simp only [List.map_cons, List.mem_cons]
      exact Or.inr (ih h)

theorem mem_lookupA_isSome {κ α : Type} [DecidableEq κ] (l : List (κ × α)) (k : κ)
    (h : k ∈ l.map Prod.fst) : (lookupA l k).isSome := by
  induction l with
  | nil => simp at h
  | cons p rest ih =>
    obtain ⟨pk, pv⟩ := p
    by_cases h2 : k = pk
    · simp [lookupA, h2]
    · simp only [List.map_cons, List.mem_cons] at h
      rcases h with h | h

      · exact absurd h h2
      · simp [lookupA, h2, ih h]

theorem mapFst_insertA_some {κ α : Type} [DecidableEq κ] (l : List (κ × α)) (k : κ) (v : α)
    (h : (lookupA l k).isSome) : (insertA l k v).map Prod.fst = l.map Prod.fst := by
  induction l with
  | nil => simp [lookupA] at h
  | cons p rest ih =>
    obtain ⟨pk, pv⟩ := p
    by_cases h2 : k = pk
    · simp [insertA, h2]
    · simp [lookupA, h2] at h
      simp [insertA, h2, ih h]

theorem mapFst_insertA_none {κ α : Type} [DecidableEq κ] (l : List (κ × α)) (k : κ) (v : α)
    (h : lookupA l k = none) : (insertA l k v).map Prod.fst = l.map Prod.fst ++ [k] := by
  induction l with
  | nil => simp [insertA]
  | cons p rest ih =>
    obtain ⟨pk, pv⟩ := p
    by_cases h2 : k = pk
    · simp [lookupA, h2] at h
    · simp [lookupA, h2] at h
      simp [insertA, h2, ih h]

theorem nodup_mapFst_insertA {κ α : Type} [DecidableEq κ] (l : List (κ × α)) (k : κ) (v : α)
    (h : (l.map Prod.fst).Nodup) : ((insertA l k v).map Prod.fst).Nodup := by
  cases h2 : lookupA l k with
  | some w =>
    rw [mapFst_insertA_some l k v (by simp [h2])]
    exact h
  | none =>
    rw [mapFst_insertA_none l k v h2]
    have hk : k ∉ l.map Prod.fst := by
      intro hmem
      have := mem_lookupA_isSome l k hmem
      simp [h2] at this
    simp [List.nodup_append, h, hk]

theorem parseStringBody_escape (k : Str) (rest : Str) :
    parseStringBody (escape k ++ '"' :: rest) = some (k, (escape k).length + 1, rest) := by
  induction k with
  | nil => simp [escape, parseStringBody]
  | cons c t ih =>
    by_cases h : c = '"' ∨ c = '\\'
    · simp only [escape, if_pos h, List.cons_append]
      simp [parseStringBody, ih]
    · push_neg at h
      simp only [escape, if_neg (by tauto : ¬(c = '"' ∨ c = '\\')), List.cons_append]
      simp [parseStringBody, h.1, h.2, ih]

theorem parseStringBody_spec_aux (L : Nat) : ∀ (s : Str), s.length ≤ L →
    ∀ t n r, parseStringBody s = some (t, n, r) →
    ∃ pre, s = pre ++ r ∧ pre.length = n ∧ 0 < n ∧
      ∀ d, parseStringBody (pre ++ d) = some (t, n, d) := by
  induction L with
  | zero =>
    intro s hs t n r h
    have : s = [] := List.eq_nil_of_length_eq_zero (Nat.le_zero.mp hs)
    subst this
    simp [parseStringBody] at h
  | succ L ih =>
    intro s hs t n r h
    cases s with
    | nil => simp [parseStringBody] at h
    | cons c s2 =>
      by_cases hq : c = '"'
      · subst hq
        simp only [parseStringBody, Option.some.injEq, Prod.mk.injEq] at h
        obtain ⟨h1, h2, h3⟩ := h
        refine ⟨['"'], ?_, ?_, ?_, ?_⟩
        · simp [h3]
        · simp [← h2]
        · omega
        · intro d
          simp [parseStringBody, h1, h2]
      · by_cases hb : c = '\\'
        · subst hb
          cases s2 with
          | nil => simp [parseStringBody] at h
          | cons d rest2 =>
            simp only [parseStringBody] at h
            cases h2 : parseStringBody rest2 with
            | none => rw [h2] at h; simp at h
            | some w =>
              obtain ⟨t2, n2, r2⟩ := w
              rw [h2] at h
              simp only [Option.some.injEq, Prod.mk.injEq] at h
              obtain ⟨ht, hn, hr⟩ := h
              have hlen : rest2.length ≤ L := by
                simp at hs
                omega
              obtain ⟨pre2, hpre1, hpre2, hpre3, hpre4⟩ := ih rest2 hlen t2 n2 r2 h2
              refine ⟨'\\' :: d :: pre2, ?_, ?_, ?_, ?_⟩
              · simp [hpre1, hr]
              · simp [hpre2]
                omega
              · omega
              · intro e
                simp [parseStringBody, hpre4 e, ht, hn]
        · have e5 : parseStringBody (c :: s2) =
              match parseStringBody s2 with
              | some (s, n, r) => some (c :: s, n + 1, r)
              | none => none :=
            parseStringBody.eq_5 c s2 (fun hc => hq hc) (fun hc _ => hb hc)
              (fun _ _ hc _ => hb hc)
          rw [e5] at h
          cases h2 : parseStringBody s2 with
          | none => rw [h2] at h; simp at h
          | some w =>
            obtain ⟨t2, n2, r2⟩ := w
            rw [h2] at h
            simp only [Option.some.injEq, Prod.mk.injEq] at h
            obtain ⟨ht, hn, hr⟩ := h
            have hlen : s2.length ≤ L := by
              simp at hs
              omega
            obtain ⟨pre2, hpre1, hpre2, hpre3, hpre4⟩ := ih s2 hlen t2 n2 r2 h2
            refine ⟨c :: pre2, ?_, ?_, ?_, ?_⟩
            · simp [hpre1, hr]
            · simp [hpre2]
              omega
            · omega
            · intro f
              have e5b : parseStringBody (c :: (pre2 ++ f)) =
                  match parseStringBody (pre2 ++ f) with
                  | some (s, n, r) => some (c :: s, n + 1, r)
                  | none => none :=
                parseStringBody.eq_5 c (pre2 ++ f) (fun hc => hq hc) (fun hc _ => hb hc)
                  (fun _ _ hc _ => hb hc)
              rw [List.cons_append, e5b, hpre4 f]
              simp [ht, hn]

theorem parseStringBody_spec (s : Str) (t : Str) (n : Nat) (r : Str)
    (h : parseStringBody s = some (t, n, r)) :
    ∃ pre, s = pre ++ r ∧ pre.length = n ∧ 0 < n ∧
      ∀ d, parseStringBody (pre ++ d) = some (t, n, d) :=
  parseStringBody_spec_aux s.length s (Nat.le_refl _) t n r h

theorem decodeOne_encodeSet (k v : Str) (rest : Str) :
    decodeOne (encodeOp (.Set k v) ++ rest) =
      some (.Set k v, (encodeOp (.Set k v)).length, rest) := by
  have h1 := parseStringBody_escape k
    (',' :: '"' :: (escape v ++ ('"' :: ']' :: '\x7d' :: rest)))
  have h2 := parseStringBody_escape v (']' :: '\x7d' :: rest)
  simp only [encodeOp, List.cons_append, List.append_assoc, List.nil_append]
  rw [decodeOne.eq_1]
  simp only [List.cons_append, List.append_assoc, List.nil_append] at h1 h2
  rw [h1]
  simp only []
  rw [h2]
  simp [escape]
  omega

theorem decodeOne_encodeRm (k : Str) (rest : Str) :
    decodeOne (encodeOp (.Rm k) ++ rest) =
      some (.Rm k, (encodeOp (.Rm k)).length, rest) := by
  have h1 := parseStringBody_escape k ('\x7d' :: rest)
  simp only [encodeOp, List.cons_append, List.append_assoc, List.nil_append]
  rw [decodeOne.eq_2]
  simp only [List.cons_append, List.append_assoc, List.nil_append] at h1
  rw [h1]
  simp [escape]
  omega

theorem decodeOne_encodeOp (op : Operation) (rest : Str) :
    decodeOne (encodeOp op ++ rest) = some (op, (encodeOp op).length, rest) := by
  cases op with
  | Set k v => exact decodeOne_encodeSet k v rest
  | Rm k => exact decodeOne_encodeRm k rest

theorem decodeOne_spec (s : Str) (op : Operation) (n : Nat) (r : Str)
    (h : decodeOne s = some (op, n, r)) :
    ∃ pre, s = pre ++ r ∧ pre.length = n ∧ 0 < n ∧
      ∀ d, decodeOne (pre ++ d) = some (op, n, d) := by
  rw [decodeOne.eq_def] at h
  split at h
  · rename_i rest
    split at h
    · rename_i k n1 r1 hp1
      split at h
      · rename_i r2
        split at h
        · rename_i v n2 r3 hp2
          split at h
          · rename_i r4
            simp only [Option.some.injEq, Prod.mk.injEq] at h
            obtain ⟨hop, hn, hr⟩ := h
            obtain ⟨pre1, ha1, hb1, hc1, hd1⟩ := parseStringBody_spec _ _ _ _ hp1
            obtain ⟨pre2, ha2, hb2, hc2, hd2⟩ := parseStringBody_spec _ _ _ _ hp2
            refine ⟨'\x7b' :: '"' :: 'S' :: 'e' :: 't' :: '"' :: ':' :: '[' :: '"' ::
              (pre1 ++ (',' :: '"' :: (pre2 ++ [']', '\x7d']))), ?_, ?_, ?_, ?_⟩
            · simp [ha1, ha2, ← hr]
            · simp [hb1, hb2, ← hn]
              omega
            · omega
            · intro d
              simp only [List.cons_append, List.append_assoc, List.nil_append]
              rw [decodeOne.eq_1]
              have hd1b := hd1 (',' :: '"' :: (pre2 ++ (']' :: '\x7d' :: d)))
              simp only [List.cons_append, List.append_assoc, List.nil_append] at hd1b
              rw [hd1b]
              simp only []
              have hd2b := hd2 (']' :: '\x7d' :: d)
              simp only [List.cons_append, List.append_assoc, List.nil_append] at hd2b
              rw [hd2b]
              simp [← hop, ← hn]
          · exact Option.noConfusion h
        · exact Option.noConfusion h
      · exact Option.noConfusion h
    · exact Option.noConfusion h
  · rename_i rest
    split at h
    · rename_i k n1 r1 hp1
      split at h
      · rename_i r2
        simp only [Option.some.injEq, Prod.mk.injEq] at h
        obtain ⟨hop, hn, hr⟩ := h
        obtain ⟨pre1, ha1, hb1, hc1, hd1⟩ := parseStringBody_spec _ _ _ _ hp1
        refine ⟨'\x7b' :: '"' :: 'R' :: 'm' :: '"' :: ':' :: '"' ::
          (pre1 ++ ['\x7d']), ?_, ?_, ?_, ?_⟩
        · simp [ha1, ← hr]
        · simp [hb1, ← hn]
          omega
        · omega
        · intro d
          simp only [List.cons_append, List.append_assoc, List.nil_append]
          rw [decodeOne.eq_2]
          have hd1b := hd1 ('\x7d' :: d)
          simp only [List.cons_append, List.append_assoc, List.nil_append] at hd1b
          rw [hd1b]
          simp [← hop, ← hn]
      · exact Option.noConfusion h
    · exact Option.noConfusion h
  · exact Option.noConfusion h

theorem decodeOne_length (s : Str) (op : Operation) (n : Nat) (r : Str)
    (h : decodeOne s = some (op, n, r)) : n + r.length = s.length ∧ 0 < n := by
  obtain ⟨pre, h1, h2, h3, h4⟩ := decodeOne_spec s op n r h
  subst h1
  constructor
  · simp [List.length_append, h2]
  · exact h3

theorem decodeAllF_congr (f1 : Nat) : ∀ (f2 : Nat) (s : Str), s.length ≤ f1 →
    s.length ≤ f2 → decodeAllF f1 s = decodeAllF f2 s := by
  induction f1 with
  | zero =>
    intro f2 s h1 h2
    have : s = [] := List.eq_nil_of_length_eq_zero (Nat.le_zero.mp h1)
    subst this
    cases f2 <;> simp [decodeAllF]
  | succ g1 ih =>
    intro f2 s h1 h2
    cases s with
    | nil => cases f2 <;> simp [decodeAllF]
    | cons c rest =>
      cases f2 with
      | zero => simp at h2
      | succ g2 =>
        simp only [decodeAllF]
        cases hd : decodeOne (c :: rest) with
        | none => simp
        | some w =>
          obtain ⟨op, n, r⟩ := w
          obtain ⟨hlen, hpos⟩ := decodeOne_length _ _ _ _ hd
          simp only [List.length_cons] at h1 h2 hlen
          have hr1 : r.length ≤ g1 := by omega
          have hr2 : r.length ≤ g2 := by omega
          simp [ih g2 r hr1 hr2]

theorem decodeAllR_nil : decodeAllR [] = some [] := rfl

theorem decodeAllR_unfold (s : Str) (hne : s ≠ []) :
    decodeAllR s = match decodeOne s with
      | none => none
      | some (op, n, r) => (decodeAllR r).map (fun l => (op, n) :: l) := by
  cases s with
  | nil => exact absurd rfl hne
  | cons c rest =>
    show decodeAllF (rest.length + 1) (c :: rest) = _
    simp only [decodeAllF]
    cases hd : decodeOne (c :: rest) with
    | none => rfl
    | some w =>
      obtain ⟨op, n, r⟩ := w
      obtain ⟨hlen, hpos⟩ := decodeOne_length _ _ _ _ hd
      simp only [List.length_cons] at hlen
      have hc : decodeAllF rest.length r = decodeAllR r :=
        decodeAllF_congr rest.length r.length r (by omega) (Nat.le_refl _)
      simp only [hc]

theorem encodeOp_ne_nil (op : Operation) : encodeOp op ≠ [] := by
  cases op <;> simp [encodeOp]

theorem decodeAllR_single (op : Operation) :
    decodeAllR (encodeOp op) = some [(op, (encodeOp op).length)] := by
  rw [decodeAllR_unfold _ (encodeOp_ne_nil op)]
  have := decodeOne_encodeOp op []
  rw [List.append_nil] at this
  rw [this]
  simp [decodeAllR_nil]

theorem decodeAllR_append_aux (L : Nat) : ∀ (c : Str), c.length ≤ L →
    ∀ rs, decodeAllR c = some rs →
    ∀ d, decodeAllR (c ++ d) = (decodeAllR d).map (fun l => rs ++ l) := by
  induction L with
  | zero =>
    intro c hc rs h d
    have : c = [] := List.eq_nil_of_length_eq_zero (Nat.le_zero.mp hc)
    subst this
    rw [decodeAllR_nil] at h
    simp only [Option.some.injEq] at h
    subst h
    simp [List.nil_append]
  | succ L ih =>
    intro c hc rs h d
    cases hcc : c with
    | nil =>
      subst hcc
      rw [decodeAllR_nil] at h
      simp only [Option.some.injEq] at h
      subst h
      simp [List.nil_append]
    | cons x rest =>
      subst hcc
      rw [decodeAllR_unfold _ (by simp)] at h
      cases hd1 : decodeOne (x :: rest) with
      | none => rw [hd1] at h; simp at h
      | some w =>
        obtain ⟨o1, n1, r1⟩ := w
        rw [hd1] at h
        simp only [] at h
        cases hall : decodeAllR r1 with
        | none => rw [hall] at h; simp at h
        | some rs1 =>
        rw [hall] at h
        simp at h
        obtain ⟨pre, hp1, hp2, hp3, hp4⟩ := decodeOne_spec _ _ _ _ hd1
        have hsplit : (x :: rest) ++ d = pre ++ (r1 ++ d) := by
          rw [hp1, List.append_assoc]
        have hne2 : (x :: rest) ++ d ≠ [] := by simp
        rw [decodeAllR_unfold _ hne2, hsplit, hp4 (r1 ++ d)]
        simp only []
        have hr1len : r1.length ≤ L := by
          obtain ⟨hlen, hpos⟩ := decodeOne_length _ _ _ _ hd1
          simp only [List.length_cons] at hlen hc
          omega
        rw [ih r1 hr1len rs1 hall d]
        cases decodeAllR d with
        | none => simp
        | some l => simp [← h]

theorem decodeAllR_append (c : Str) (rs : List Rec) (h : decodeAllR c = some rs) (d : Str) :
    decodeAllR (c ++ d) = (decodeAllR d).map (fun l => rs ++ l) :=
  decodeAllR_append_aux c.length c (Nat.le_refl _) rs h d

theorem decodeAllR_encJoin (ops : List Operation) :
    decodeAllR (encJoin ops) = some (recsOf ops) := by
  induction ops with
  | nil => simp [encJoin, recsOf, decodeAllR_nil]
  | cons op t ih =>
    have : encJoin (op :: t) = encodeOp op ++ encJoin t := by
      simp [encJoin]
    rw [this, decodeAllR_append (encodeOp op) [(op, (encodeOp op).length)]
      (decodeAllR_single op) (encJoin t), ih]
    simp [recsOf]

theorem decodeAllR_snoc (c : Str) (rs : List Rec) (h : decodeAllR c = some rs)
    (op : Operation) : decodeAllR (c ++ encodeOp op) =
      some (rs ++ [(op, (encodeOp op).length)]) := by
  rw [decodeAllR_append c rs h (encodeOp op), decodeAllR_single op]
  rfl

theorem decodeAllR_bad_tail (c : Str) (rs : List Rec) (h : decodeAllR c = some rs)
    (t : Str) (hne : t ≠ []) (hbad : decodeOne t = none) :
    decodeAllR (c ++ t) = none := by
  rw [decodeAllR_append c rs h t, decodeAllR_unfold t hne, hbad]
  rfl

theorem loadDataF_eq (fid : Nat) (L : Nat) : ∀ (s : Str), s.length ≤ L →
    ∀ fuel, s.length ≤ fuel → ∀ pos index acc,
    loadDataF fid fuel s pos index acc =
      match decodeAllR s with
      | none => .error .Serde
      | some rs => .ok ((replayRecs fid (index, pos, acc) rs).1,
          (replayRecs fid (index, pos, acc) rs).2.2) := by
  induction L with
  | zero =>
    intro s hs fuel hf pos index acc
    have : s = [] := List.eq_nil_of_length_eq_zero (Nat.le_zero.mp hs)
    subst this
    cases fuel <;> simp [loadDataF, decodeAllR_nil, replayRecs]
  | succ L ih =>
    intro s hs fuel hf pos index acc
    cases s with
    | nil => cases fuel <;> simp [loadDataF, decodeAllR_nil, replayRecs]
    | cons c rest =>
      cases fuel with
      | zero => simp at hf
      | succ f =>
        rw [decodeAllR_unfold (c :: rest) (by simp)]
        simp only [loadDataF]
        cases hd : decodeOne (c :: rest) with
        | none => simp
        | some w =>
          obtain ⟨op, n, r⟩ := w
          obtain ⟨hlen, hpos⟩ := decodeOne_length _ _ _ _ hd
          simp only [List.length_cons] at hlen hs hf
          have hrL : r.length ≤ L := by omega
          have hrf : r.length ≤ f := by omega
          simp only []
          cases op with
          | Set key value =>
            cases hold : lookupA index key with
            | some old =>
              simp only [hold]
              rw [ih r hrL f hrf (pos + n) (insertA index key ⟨fid, pos, n⟩) (acc + old.len)]
              cases decodeAllR r with
              | none => simp
              | some rs1 => simp [replayRecs, replayRec, hold]
            | none =>
              simp only [hold]
              rw [ih r hrL f hrf (pos + n) (insertA index key ⟨fid, pos, n⟩) acc]
              cases decodeAllR r with
              | none => simp
              | some rs1 => simp [replayRecs, replayRec, hold]
          | Rm key =>
            cases hold : lookupA index key with
            | some old =>
              simp only [hold]
              rw [ih r hrL f hrf (pos + n) (eraseA index key) (acc + old.len + n)]
              cases decodeAllR r with
              | none => simp
              | some rs1 => simp [replayRecs, replayRec, hold]
            | none =>
              simp only [hold]
              rw [ih r hrL f hrf (pos + n) (eraseA index key) (acc + n)]
              cases decodeAllR r with
              | none => simp
              | some rs1 => simp [replayRecs, replayRec, hold]

theorem loadData_eq (fid : Nat) (content : Str) (index : List (Str × Pointer)) :
    loadData fid content index =
      match decodeAllR content with
      | none => .error .Serde
      | some rs => .ok ((replayRecs fid (index, 0, 0) rs).1,
          (replayRecs fid (index, 0, 0) rs).2.2) :=
  loadDataF_eq fid content.length content (Nat.le_refl _) content.length (Nat.le_refl _) 0 index 0

theorem lookupA_insertA {κ α : Type} [DecidableEq κ] (l : List (κ × α)) (k q : κ) (v : α) :
    lookupA (insertA l k v) q = if q = k then some v else lookupA l q := by
  by_cases h : q = k
  · subst h
    simp [lookupA_insertA_self]
  · simp [h, lookupA_insertA_ne l k q v h]

theorem lookupA_eraseA {κ α : Type} [DecidableEq κ] (l : List (κ × α)) (k q : κ) :
    lookupA (eraseA l k) q = if q = k then none else lookupA l q := by
  by_cases h : q = k
  · subst h
    simp [lookupA_eraseA_self]
  · simp [h, lookupA_eraseA_ne l k q h]

theorem applyRecs_append (m : List (Str × Str)) (a b : List Rec) :
    applyRecs m (a ++ b) = applyRecs (applyRecs m a) b := by
  simp [applyRecs, List.foldl_append]

theorem sliceDec_extent (content : Str) (p : Pointer) (op : Operation)
    (h : sliceDec content p op) : p.start + p.len ≤ content.length ∧ 0 < p.len := by
  obtain ⟨hlen, hpos⟩ := decodeOne_length _ _ _ _ h
  simp only [List.length_nil, Nat.add_zero, List.length_take, List.length_drop] at hlen
  omega

theorem sliceDec_append (content : Str) (p : Pointer) (op : Operation) (d : Str)
    (h : sliceDec content p op) : sliceDec (content ++ d) p op := by
  obtain ⟨hext, hpos⟩ := sliceDec_extent content p op h
  unfold sliceDec at h ⊢
  rw [List.drop_append_of_le_length (by omega),
    List.take_append_of_le_length (by simp; omega)]
  exact h

theorem sliceDec_new (c : Str) (f : Nat) (op : Operation) :
    sliceDec (c ++ encodeOp op) ⟨f, c.length, (encodeOp op).length⟩ op := by
  unfold sliceDec
  simp only [List.drop_left, List.take_length]
  have := decodeOne_encodeOp op []
  rwa [List.append_nil] at this

theorem decodeAllR_some_nil (c : Str) (h : decodeAllR c = some []) : c = [] := by
  cases hc : c with
  | nil => rfl
  | cons x rest =>
    subst hc
    rw [decodeAllR_unfold _ (by simp)] at h
    cases hd : decodeOne (x :: rest) with
    | none => rw [hd] at h; simp at h
    | some w =>
      obtain ⟨op, n, r⟩ := w
      rw [hd] at h
      simp only [] at h
      cases decodeAllR r with
      | none => simp at h
      | some l => simp at h

theorem replayRecs_sem (fid : Nat) (C : Str) (G : Str → Pointer → Str → Prop)
    (hGnew : ∀ pos n k v, sliceDec C ⟨fid, pos, n⟩ (.Set k v) → G k ⟨fid, pos, n⟩ v) :
    ∀ (rs : List Rec) (c : Str), decodeAllR c = some rs →
    ∀ (pos : Nat), C.drop pos = c → pos ≤ C.length →
    ∀ (idx : List (Str × Pointer)) (acc : Nat) (m : List (Str × Str)),
    (∀ k p, lookupA idx k = some p → ∃ v, G k p v ∧ lookupA m k = some v) →
    (∀ k, lookupA idx k = none → lookupA m k = none) →
    (∀ k p, lookupA (replayRecs fid (idx, pos, acc) rs).1 k = some p →
      ∃ v, G k p v ∧ lookupA (applyRecs m rs) k = some v) ∧
    (∀ k, lookupA (replayRecs fid (idx, pos, acc) rs).1 k = none →
      lookupA (applyRecs m rs) k = none) ∧
    (replayRecs fid (idx, pos, acc) rs).2.1 = C.length := by
  intro rs
  induction rs with
  | nil =>
    intro c hc pos hdrop hpos idx acc m Hidx Hnone
    have hcnil : c = [] := decodeAllR_some_nil c hc
    subst hcnil
    refine ⟨Hidx, Hnone, ?_⟩
    have hlen : C.length - pos = 0 := by
      have := congrArg List.length hdrop
      simpa using this
    simp [replayRecs, applyRecs]
    omega
  | cons r0 rs2 ih =>
    intro c hc pos hdrop hpos idx acc m Hidx Hnone
    obtain ⟨op, n⟩ := r0
    have hcne : c ≠ [] := by
      intro hnil
      subst hnil
      rw [decodeAllR_nil] at hc
      simp at hc
    rw [decodeAllR_unfold c hcne] at hc
    cases hd : decodeOne c with
    | none => rw [hd] at hc; simp at hc
    | some w =>
      obtain ⟨op2, n2, r⟩ := w
      rw [hd] at hc
      simp only [] at hc
      cases hall : decodeAllR r with
      | none => rw [hall] at hc; simp at hc
      | some rs3 =>
        rw [hall] at hc
        simp only [Option.map_some', Option.some.injEq, List.cons.injEq,
          Prod.mk.injEq] at hc
        obtain ⟨⟨hop, hn⟩, hrs⟩ := hc
        subst hop
        subst hn
        subst hrs
        obtain ⟨pre, hp1, hp2, hp3, hp4⟩ := decodeOne_spec _ _ _ _ hd
        have hclen : n2 + r.length = c.length := (decodeOne_length _ _ _ _ hd).1
        have hCc : C.length - pos = c.length := by
          have := congrArg List.length hdrop
          simpa using this
        have hpos2 : pos + n2 ≤ C.length := by omega
        have hdrop2 : C.drop (pos + n2) = r := by
          rw [← List.drop_drop, hdrop, hp1, ← hp2, List.drop_left]
        have hpre : decodeOne pre = some (op2, n2, []) := by
          have := hp4 []
          rwa [List.append_nil] at this
        have hslice : sliceDec C ⟨fid, pos, n2⟩ op2 := by
          unfold sliceDec
          simp only []
          rw [hdrop, hp1, ← hp2, List.take_left]
          rw [hp2]
          exact hpre
        cases op2 with
        | Set key value =>
          have hGk : G key ⟨fid, pos, n2⟩ value := hGnew pos n2 key value hslice
          have step : replayRecs fid (idx, pos, acc) ((Operation.Set key value, n2) :: rs3) =
              replayRecs fid (insertA idx key ⟨fid, pos, n2⟩, pos + n2,
                acc + (match lookupA idx key with | some old => old.len | none => 0)) rs3 := by
            simp [replayRecs, replayRec]
          have stepm : applyRecs m ((Operation.Set key value, n2) :: rs3) =
              applyRecs (insertA m key value) rs3 := by
            simp [applyRecs, applyOp]
          rw [step, stepm]
          refine ih r hall (pos + n2) hdrop2 hpos2
            (insertA idx key ⟨fid, pos, n2⟩) _ (insertA m key value) ?_ ?_
          · intro k2 p2 hl
            rw [lookupA_insertA] at hl
            by_cases hk : k2 = key
            · subst hk
              simp at hl
              subst hl
              exact ⟨value, hGk, by rw [lookupA_insertA_self]⟩
            · rw [if_neg hk] at hl
              obtain ⟨v2, hv1, hv2⟩ := Hidx k2 p2 hl
              exact ⟨v2, hv1, by rw [lookupA_insertA_ne _ _ _ _ hk]; exact hv2⟩
          · intro k2 hl
            rw [lookupA_insertA] at hl
            by_cases hk : k2 = key
            · subst hk
              simp at hl
            · rw [if_neg hk] at hl
              rw [lookupA_insertA_ne _ _ _ _ hk]
              exact Hnone k2 hl
        | Rm key =>
          have step : replayRecs fid (idx, pos, acc) ((Operation.Rm key, n2) :: rs3) =
              replayRecs fid (eraseA idx key, pos + n2,
                acc + (match lookupA idx key with | some old => old.len | none => 0) + n2) rs3 := by
            simp [replayRecs, replayRec]
          have stepm : applyRecs m ((Operation.Rm key, n2) :: rs3) =
              applyRecs (eraseA m key) rs3 := by
            simp [applyRecs, applyOp]
          rw [step, stepm]
          refine ih r hall (pos + n2) hdrop2 hpos2
            (eraseA idx key) _ (eraseA m key) ?_ ?_
          · intro k2 p2 hl
            rw [lookupA_eraseA] at hl
            by_cases hk : k2 = key
            · rw [if_pos hk] at hl
              exact absurd hl (by simp)
            · rw [if_neg hk] at hl
              obtain ⟨v2, hv1, hv2⟩ := Hidx k2 p2 hl
              exact ⟨v2, hv1, by rw [lookupA_eraseA, if_neg hk]; exact hv2⟩
          · intro k2 hl
            rw [lookupA_eraseA] at hl
            rw [lookupA_eraseA]
            by_cases hk : k2 = key
            · rw [if_pos hk]
            · rw [if_neg hk] at hl
              rw [if_neg hk]
              exact Hnone k2 hl

theorem openFold_sem (fs : FS) :
    ∀ (ids : List Nat),
    (∀ i, i ∈ ids → ∃ content, lookupA fs.logs i = some content ∧
      (decodeAllR content).isSome) →
    ∀ (readers : List (Nat × Target × Nat)) (idx : List (Str × Pointer)) (rubbish : Nat)
      (m : List (Str × Str)),
    (∀ k p, lookupA idx k = some p → ∃ v, GoodPtrV fs k p v ∧ lookupA m k = some v) →
    (∀ k, lookupA idx k = none → lookupA m k = none) →
    (∀ i t c, lookupA readers i = some (t, c) → t = Target.log i) →
    (readers.map Prod.fst).Nodup →
    ∃ readers2 idx2 rubbish2,
      openFold fs ids readers idx rubbish = .ok (readers2, idx2, rubbish2) ∧
      (∀ k p, lookupA idx2 k = some p → ∃ v, GoodPtrV fs k p v ∧
        lookupA (applyRecs m ((ids.map (recsOfLog fs)).flatten)) k = some v) ∧
      (∀ k, lookupA idx2 k = none →
        lookupA (applyRecs m ((ids.map (recsOfLog fs)).flatten)) k = none) ∧
      (∀ i, (lookupA readers2 i).isSome =
        ((lookupA readers i).isSome || decide (i ∈ ids))) ∧
      (∀ i t c, lookupA readers2 i = some (t, c) → t = Target.log i) ∧
      (readers2.map Prod.fst).Nodup := by
  intro ids
  induction ids with
  | nil =>
    intro h readers idx rubbish m Hidx Hnone hT hND
    refine ⟨readers, idx, rubbish, rfl, ?_, ?_, ?_, hT, hND⟩
    · simpa [applyRecs] using Hidx
    · simpa [applyRecs] using Hnone
    · intro i
      simp
  | cons i rest ih =>
    intro h readers idx rubbish m Hidx Hnone hT hND
    obtain ⟨content, hcontent, hdec⟩ := h i (by simp)
    obtain ⟨rs, hrs⟩ := Option.isSome_iff_exists.mp hdec
    have hload : loadData i content idx = .ok ((replayRecs i (idx, 0, 0) rs).1,
        (replayRecs i (idx, 0, 0) rs).2.2) := by
      rw [loadData_eq, hrs]
    have hsem := replayRecs_sem i content (GoodPtrV fs)
      (fun pos n k v hs => ⟨content, hcontent, hs⟩) rs content hrs 0 (by simp) (by simp)
      idx 0 m Hidx Hnone
    obtain ⟨Hidx2, Hnone2, hposend⟩ := hsem
    have hrecs : recsOfLog fs i = rs := by
      unfold recsOfLog
      rw [hcontent]
      simp [hrs]
    obtain ⟨readers2, idx2, rubbish2, hfold, hA, hB, hC, hD, hE⟩ :=
      ih (fun j hj => h j (by simp [hj]))
        (insertA readers i (Target.log i, content.length))
        (replayRecs i (idx, 0, 0) rs).1 (rubbish + (replayRecs i (idx, 0, 0) rs).2.2)
        (applyRecs m rs) Hidx2 Hnone2
        (by
          intro j t c hl
          rw [lookupA_insertA] at hl
          by_cases hj : j = i
          · rw [if_pos hj] at hl
            simp only [Option.some.injEq, Prod.mk.injEq] at hl
            subst hj
            exact hl.1.symm
          · rw [if_neg hj] at hl
            exact hT j t c hl)
        (nodup_mapFst_insertA readers i _ hND)
    refine ⟨readers2, idx2, rubbish2, ?_, ?_, ?_, ?_, hD, hE⟩
    · simp only [openFold, hcontent, hload]
      exact hfold
    · intro k p hl
      obtain ⟨v, hv1, hv2⟩ := hA k p hl
      refine ⟨v, hv1, ?_⟩
      simpa [hrecs, applyRecs_append] using hv2
    · intro k hl
      have := hB k hl
      simpa [hrecs, applyRecs_append] using this
    · intro j
      rw [hC j, lookupA_insertA]
      by_cases hj : j = i
      · subst hj
        simp
      · simp [hj]

theorem openFold_ok_WF (fs : FS) : ∀ (ids : List Nat) readers idx rubbish out,
    openFold fs ids readers idx rubbish = .ok out →
    ∀ i, i ∈ ids → ∃ content, lookupA fs.logs i = some content ∧
      (decodeAllR content).isSome := by
  intro ids
  induction ids with
  | nil =>
    intro readers idx rubbish out h i hi
    simp at hi
  | cons j rest ih =>
    intro readers idx rubbish out h i hi
    simp only [openFold] at h
    cases hc : lookupA fs.logs j with
    | none => rw [hc] at h; simp at h
    | some content =>
      rw [hc] at h
      simp only [] at h
      cases hl : loadData j content idx with
      | error e => rw [hl] at h; simp at h
      | ok w =>
        rw [hl] at h
        simp only [] at h
        have hdec : (decodeAllR content).isSome := by
          rw [loadData_eq] at hl
          cases hd : decodeAllR content with
          | none => rw [hd] at hl; simp at hl
          | some rs => simp
        rcases List.mem_cons.mp hi with hij | hirest
        · subst hij
          exact ⟨content, hc, hdec⟩
        · exact ih _ _ _ _ h i hirest

theorem sorted_le_getLast : ∀ (l : List Nat), l.Sorted (· ≤ ·) →
    ∀ a, a ∈ l → a ≤ l.getLast?.getD 0 := by
  intro l
  induction l with
  | nil =>
    intro hs a ha
    simp at ha
  | cons x t ih =>
    intro hs a ha
    cases t with
    | nil =>
      simp at ha
      simp [ha]
    | cons y t2 =>
      have hgl : (x :: y :: t2).getLast? = (y :: t2).getLast? := by simp
      rw [hgl]
      rcases List.mem_cons.mp ha with hax | hat
      · subst hax
        have hx : a ≤ y := List.rel_of_sorted_cons hs y (by simp)
        have hy : y ≤ (y :: t2).getLast?.getD 0 := ih hs.of_cons y (by simp)
        omega
      · exact ih hs.of_cons a hat

theorem sortIds_perm (l : List Nat) : List.Perm (sortIds l) l :=
  List.perm_insertionSort _ l

theorem sortIds_sorted (l : List Nat) : (sortIds l).Sorted (· ≤ ·) :=
  List.sorted_insertionSort _ l

theorem sortIds_max_decomp (ids : List Nat) (n : Nat) (hnd : ids.Nodup) (hmem : n ∈ ids)
    (hmax : ∀ i, i ∈ ids → i ≤ n) :
    ∃ rest, sortIds ids = rest ++ [n] ∧ n ∉ rest ∧ rest.Sorted (· ≤ ·) ∧
      (∀ i, i ∈ rest → i ∈ ids) := by
  have hperm := sortIds_perm ids
  have hsorted := sortIds_sorted ids
  have hmemsl : n ∈ sortIds ids := hperm.mem_iff.mpr hmem
  have hne : sortIds ids ≠ [] := List.ne_nil_of_mem hmemsl
  have hgllast : (sortIds ids).getLast? = some ((sortIds ids).getLast hne) :=
    List.getLast?_eq_getLast _ hne
  have hglmem : (sortIds ids).getLast hne ∈ sortIds ids := List.getLast_mem hne
  have hgl_le : (sortIds ids).getLast hne ≤ n := hmax _ (hperm.mem_iff.mp hglmem)
  have hle_gl : n ≤ (sortIds ids).getLast?.getD 0 := sorted_le_getLast _ hsorted n hmemsl
  have hgl_eq : (sortIds ids).getLast hne = n := by
    rw [hgllast] at hle_gl
    simp at hle_gl
    omega
  have hdecomp : sortIds ids = (sortIds ids).dropLast ++ [n] := by
    conv_lhs => rw [← List.dropLast_append_getLast hne]
    rw [hgl_eq]
  have hndsl : (sortIds ids).Nodup := hperm.nodup_iff.mpr hnd
  refine ⟨(sortIds ids).dropLast, hdecomp, ?_, ?_, ?_⟩
  · rw [hdecomp] at hndsl
    have := List.disjoint_of_nodup_append hndsl
    intro hmem2
    exact this hmem2 (by simp)
  · rw [hdecomp] at hsorted
    exact (List.pairwise_append.mp hsorted).1
  · intro i hi
    have : i ∈ sortIds ids := by
      rw [hdecomp]
      simp [hi]
    exact hperm.mem_iff.mp this

theorem sortIds_snoc_max (ids : List Nat) (n : Nat) (hmax : ∀ i, i ∈ ids → i ≤ n) :
    sortIds (ids ++ [n]) = sortIds ids ++ [n] := by
  refine List.eq_of_perm_of_sorted ?_ (sortIds_sorted _) ?_
  · exact ((sortIds_perm _).trans ((sortIds_perm ids).symm.append_right [n])).symm.symm
  · refine List.pairwise_append.mpr ⟨sortIds_sorted ids, by simp, ?_⟩
    intro a ha b hb
    simp at hb
    subst hb
    exact hmax a ((sortIds_perm ids).mem_iff.mp ha)

theorem allRecs_write_active (fs : FS) (F : Nat) (ca : Str) (op : Operation)
    (hND : (fs.logs.map Prod.fst).Nodup)
    (hca : lookupA fs.logs F = some ca) (rsa : List Rec) (hdec : decodeAllR ca = some rsa)
    (hmax : ∀ i, (lookupA fs.logs i).isSome = true → i ≤ F) :
    allRecs (fs.writeTarget (Target.log F) (encodeOp op)) =
      allRecs fs ++ [(op, (encodeOp op).length)] := by
  have hwrite : (fs.writeTarget (Target.log F) (encodeOp op)).logs =
      insertA fs.logs F (ca ++ encodeOp op) := by
    simp [FS.writeTarget, hca]
  have hfst : (insertA fs.logs F (ca ++ encodeOp op)).map Prod.fst = fs.logs.map Prod.fst :=
    mapFst_insertA_some _ _ _ (by simp [hca])
  have hsl : sortLog (fs.writeTarget (Target.log F) (encodeOp op)) = sortLog fs := by
    simp [sortLog, hwrite, hfst]
  have hFmem : F ∈ fs.logs.map Prod.fst := lookupA_some_mem _ _ _ hca
  have hmax2 : ∀ i, i ∈ fs.logs.map Prod.fst → i ≤ F := by
    intro i hi
    exact hmax i (mem_lookupA_isSome _ _ hi)
  obtain ⟨rest, hde, hnmem, hsort, hsub⟩ := sortIds_max_decomp _ F hND hFmem hmax2
  have hrest : ∀ i, i ∈ rest →
      recsOfLog (fs.writeTarget (Target.log F) (encodeOp op)) i = recsOfLog fs i := by
    intro i hi
    have hne : i ≠ F := fun h => hnmem (h ▸ hi)
    unfold recsOfLog
    rw [hwrite, lookupA_insertA_ne _ _ _ _ hne]
  have hat : recsOfLog (fs.writeTarget (Target.log F) (encodeOp op)) F =
      rsa ++ [(op, (encodeOp op).length)] := by
    unfold recsOfLog
    rw [hwrite, lookupA_insertA_self]
    simp [decodeAllR_snoc ca rsa hdec op]
  have hatF : recsOfLog fs F = rsa := by
    unfold recsOfLog
    rw [hca]
    simp [hdec]
  unfold allRecs
  rw [hsl]
  simp only [sortLog]
  rw [hde]
  rw [List.map_append, List.map_append, List.flatten_append, List.flatten_append]
  rw [List.map_congr_left hrest]
  simp [hat, hatF]

theorem allRecs_fresh_log (fs : FS) (n : Nat)
    (hfresh : lookupA fs.logs n = none)
    (hmax : ∀ i, (lookupA fs.logs i).isSome = true → i ≤ n) :
    allRecs { fs with logs := insertA fs.logs n [] } = allRecs fs := by
  have hfst : (insertA fs.logs n []).map Prod.fst = fs.logs.map Prod.fst ++ [n] :=
    mapFst_insertA_none _ _ _ hfresh
  have hmax2 : ∀ i, i ∈ fs.logs.map Prod.fst → i ≤ n := by
    intro i hi
    exact hmax i (mem_lookupA_isSome _ _ hi)
  have hsl : sortLog { fs with logs := insertA fs.logs n [] } =
      sortLog fs ++ [n] := by
    simp only [sortLog, hfst]
    exact sortIds_snoc_max _ n hmax2
  have hrest : ∀ i, i ∈ sortLog fs →
      recsOfLog { fs with logs := insertA fs.logs n [] } i = recsOfLog fs i := by
    intro i hi
    have himem : i ∈ fs.logs.map Prod.fst := (sortIds_perm _).mem_iff.mp hi
    have hne : i ≠ n := by
      intro h
      subst h
      have := mem_lookupA_isSome _ _ himem
      simp [hfresh] at this
    unfold recsOfLog
    simp only []
    rw [lookupA_insertA_ne _ _ _ _ hne]
  have hat : recsOfLog { fs with logs := insertA fs.logs n [] } n = [] := by
    unfold recsOfLog
    simp only []
    rw [lookupA_insertA_self]
    simp [decodeAllR_nil]
  unfold allRecs
  rw [hsl, List.map_append, List.flatten_append, List.map_congr_left hrest]
  simp [hat]

theorem get_frame (s : KvStore) (fs : FS) (key : Str) :
    ((s.get fs key).2).index = s.index ∧ ((s.get fs key).2).writer = s.writer ∧
    ((s.get fs key).2).fid = s.fid ∧ ((s.get fs key).2).rubbish = s.rubbish ∧
    (∀ i, (lookupA ((s.get fs key).2).readers i).map Prod.fst =
      (lookupA s.readers i).map Prod.fst) ∧
    (((s.get fs key).2).readers.map Prod.fst = s.readers.map Prod.fst) := by
  unfold KvStore.get
  cases hl : lookupA s.index key with
  | none => simp
  | some ptr =>
    simp only []
    cases hr : lookupA s.readers ptr.fid with
    | none => simp
    | some w =>
      obtain ⟨tgt, cur⟩ := w
      simp only []
      have hsome : (lookupA s.readers ptr.fid).isSome := by simp [hr]
      have hmapfst : (insertA s.readers ptr.fid
          (tgt, ptr.start +
            (((fs.readTarget tgt).drop ptr.start).take ptr.len).length)).map Prod.fst =
          s.readers.map Prod.fst :=
        mapFst_insertA_some _ _ _ hsome
      have hpoint : ∀ i, (lookupA (insertA s.readers ptr.fid
          (tgt, ptr.start + (((fs.readTarget tgt).drop ptr.start).take ptr.len).length)) i).map
            Prod.fst = (lookupA s.readers i).map Prod.fst := by
        intro i
        rw [lookupA_insertA]
        by_cases hi : i = ptr.fid
        · subst hi
          rw [hr]
          simp
        · rw [if_neg hi]
      cases hd : decodeOne (((fs.readTarget tgt).drop ptr.start).take ptr.len) with
      | none => exact ⟨rfl, rfl, rfl, rfl, hpoint, hmapfst⟩
      | some w2 =>
        obtain ⟨op, n, r⟩ := w2
        simp only []
        by_cases hre : r.isEmpty
        · rw [if_pos hre]
          cases op with
          | Set k2 v2 => exact ⟨rfl, rfl, rfl, rfl, hpoint, hmapfst⟩
          | Rm k2 => exact ⟨rfl, rfl, rfl, rfl, hpoint, hmapfst⟩
        · rw [if_neg hre]
          exact ⟨rfl, rfl, rfl, rfl, hpoint, hmapfst⟩

theorem storeInv_after_get (s : KvStore) (fs : FS) (key : Str) (hInv : StoreInv s fs) :
    StoreInv ((s.get fs key).2) fs := by
  obtain ⟨hidx, hwr, hfid, hrub, hpoint, hmapfst⟩ := get_frame s fs key
  refine ⟨hInv.staging, ?_, ?_, ?_, ?_, ?_, hInv.logsWF, ?_, hInv.nodupLogs, ?_, ?_⟩
  · rw [hwr, hfid]
    exact hInv.writerTarget
  · rw [hwr, hfid]
    exact hInv.activeContent
  · intro i
    have h1 := hpoint i
    have h2 := hInv.readersLogs i
    cases hb : lookupA ((s.get fs key).2).readers i with
    | none =>
      rw [hb] at h1
      cases hc : lookupA s.readers i with
      | none => rw [hc] at h2; simp [hb, ← h2]
      | some w => rw [hc] at h1; simp at h1
    | some w =>
      rw [hb] at h1
      cases hc : lookupA s.readers i with
      | none => rw [hc] at h1; simp at h1
      | some w2 => rw [hc] at h2; simp [hb, ← h2]
  · intro i t c hl
    have h1 := hpoint i
    rw [hl] at h1
    cases hc : lookupA s.readers i with
    | none => rw [hc] at h1; simp at h1
    | some w2 =>
      obtain ⟨t2, c2⟩ := w2
      rw [hc] at h1
      simp at h1
      rw [h1]
      exact hInv.readersTarget i t2 c2 hc
  · rw [hmapfst]
    exact hInv.readersNodup
  · rw [hfid]
    exact hInv.fidMax
  · rw [hidx]
    exact hInv.indexGood
  · rw [hidx]
    exact hInv.indexNone

theorem get_res (s : KvStore) (fs : FS) (key : Str) (hInv : StoreInv s fs) :
    (s.get fs key).1 = .ok (lookupA (Mof fs) key) := by
  cases hl : lookupA s.index key with
  | none =>
    have hm := hInv.indexNone key hl
    unfold KvStore.get
    rw [hl, hm]
  | some p =>
    obtain ⟨v, ⟨content, hcont, hslice⟩, hm⟩ := hInv.indexGood key p hl
    have hrsome : (lookupA s.readers p.fid).isSome = true := by
      rw [hInv.readersLogs p.fid, hcont]
      rfl
    obtain ⟨w, hw⟩ := Option.isSome_iff_exists.mp hrsome
    obtain ⟨tgt, cur⟩ := w
    have htgt : tgt = Target.log p.fid := hInv.readersTarget p.fid tgt cur hw
    subst htgt
    unfold KvStore.get
    rw [hl]
    simp only []
    rw [hw]
    simp only []
    have hread : fs.readTarget (Target.log p.fid) = content := by
      simp [FS.readTarget, hcont]
    rw [hread]
    unfold sliceDec at hslice
    rw [hslice]
    simp [hm]

theorem materialize_sem (fs : FS) : ∀ (keys : List Str) (s : KvStore) (temp : List (Str × Str)),
    StoreInv s fs →
    (∀ q, lookupA temp q = lookupA (Mof fs) q ∨ (lookupA temp q = none ∧ q ∈ keys)) →
    (temp.map Prod.fst).Nodup →
    ∃ temp2 s2, materialize fs s keys temp = (.ok temp2, s2) ∧
      StoreInv s2 fs ∧ s2.index = s.index ∧
      s2.readers.map Prod.fst = s.readers.map Prod.fst ∧
      (∀ q, lookupA temp2 q = lookupA (Mof fs) q) ∧ (temp2.map Prod.fst).Nodup := by
  intro keys
  induction keys with
  | nil =>
    intro s temp hInv htemp hnd
    refine ⟨temp, s, rfl, hInv, rfl, rfl, ?_, hnd⟩
    intro q
    rcases htemp q with h | ⟨h1, h2⟩
    · exact h
    · simp at h2
  | cons key rest ih =>
    intro s temp hInv htemp hnd
    have hres := get_res s fs key hInv
    have heta : s.get fs key = ((s.get fs key).1, (s.get fs key).2) := rfl
    have hInv2 := storeInv_after_get s fs key hInv
    obtain ⟨hidx, hwr, hfid, hrub, hpoint, hmapfst⟩ := get_frame s fs key
    cases hl : lookupA s.index key with
    | none =>
      have hm : lookupA (Mof fs) key = none := hInv.indexNone key hl
      have hget : s.get fs key = (.ok none, s) := by
        unfold KvStore.get
        rw [hl]
      have hstep : materialize fs s (key :: rest) temp =
          materialize fs s rest temp := by
        simp only [materialize, hget]
      rw [hstep]
      refine ih s temp hInv ?_ hnd
      intro q
      rcases htemp q with h | ⟨h1, h2⟩
      · exact Or.inl h
      · by_cases hq : q = key
        · subst hq
          exact Or.inl (by rw [h1, hm])
        · rcases List.mem_cons.mp h2 with h3 | h3
          · exact absurd h3 hq
          · exact Or.inr ⟨h1, h3⟩
    | some p =>
      obtain ⟨v, hgood, hm⟩ := hInv.indexGood key p hl
      rw [hm] at hres
      have hget : s.get fs key = (.ok (some v), (s.get fs key).2) := by
        rw [heta, hres]
      have hstep : materialize fs s (key :: rest) temp =
          materialize fs ((s.get fs key).2) rest (insertA temp key v) := by
        simp only [materialize]
        rw [hget]
      rw [hstep]
      obtain ⟨temp2, s2, hmat, hI, hix, hrd, hval, hnd2⟩ :=
        ih ((s.get fs key).2) (insertA temp key v) hInv2
          (by
            intro q
            rw [lookupA_insertA]
            by_cases hq : q = key
            · subst hq
              simp [hm]
            · rw [if_neg hq]
              rcases htemp q with h | ⟨h1, h2⟩
              · exact Or.inl h
              · rcases List.mem_cons.mp h2 with h3 | h3
                · exact absurd h3 hq
                · exact Or.inr ⟨h1, h3⟩)
          (nodup_mapFst_insertA _ _ _ hnd)
      refine ⟨temp2, s2, hmat, hI, ?_, ?_, hval, hnd2⟩
      · rw [hix, hidx]
      · rw [hrd, hmapfst]

theorem writeStagingGo_sem : ∀ (temp : List (Str × Str)) (content : Str)
    (idx : List (Str × Pointer)) (rs : List Rec) (m : List (Str × Str)),
    decodeAllR content = some rs →
    (∀ q, lookupA (applyRecs [] rs) q = lookupA m q) →
    (∀ k p, lookupA idx k = some p → p.fid = 1 ∧ ∃ v, sliceDec content p (.Set k v) ∧
      lookupA m k = some v) →
    (∀ k, lookupA idx k = none → lookupA m k = none) →
    ∃ rsF, decodeAllR (writeStagingGo temp content content.length idx).1 = some rsF ∧
      (∀ q, lookupA (applyRecs [] rsF) q =
        lookupA (temp.foldl (fun m2 pr => insertA m2 pr.1 pr.2) m) q) ∧
      (∀ k p, lookupA (writeStagingGo temp content content.length idx).2 k = some p →
        p.fid = 1 ∧ ∃ v,
          sliceDec (writeStagingGo temp content content.length idx).1 p (.Set k v) ∧
          lookupA (temp.foldl (fun m2 pr => insertA m2 pr.1 pr.2) m) k = some v) ∧
      (∀ k, lookupA (writeStagingGo temp content content.length idx).2 k = none →
        lookupA (temp.foldl (fun m2 pr => insertA m2 pr.1 pr.2) m) k = none) := by
  intro temp
  induction temp with
  | nil =>
    intro content idx rs m hdec hm Hidx Hnone
    exact ⟨rs, hdec, hm, Hidx, Hnone⟩
  | cons kv rest ih =>
    intro content idx rs m hdec hm Hidx Hnone
    obtain ⟨k, v⟩ := kv
    have hstep : writeStagingGo ((k, v) :: rest) content content.length idx =
        writeStagingGo rest (content ++ encodeOp (.Set k v))
          (content ++ encodeOp (.Set k v)).length
          (insertA idx k ⟨1, content.length, (encodeOp (.Set k v)).length⟩) := by
      simp [writeStagingGo]
    rw [hstep]
    have hdec2 : decodeAllR (content ++ encodeOp (.Set k v)) =
        some (rs ++ [(Operation.Set k v, (encodeOp (.Set k v)).length)]) :=
      decodeAllR_snoc content rs hdec (.Set k v)
    have hfold : ((k, v) :: rest).foldl (fun m2 pr => insertA m2 pr.1 pr.2) m =
        rest.foldl (fun m2 pr => insertA m2 pr.1 pr.2) (insertA m k v) := by
      simp
    rw [hfold]
    refine ih (content ++ encodeOp (.Set k v)) _ _ (insertA m k v) hdec2 ?_ ?_ ?_
    · intro q
      rw [applyRecs_append]
      show lookupA (applyOp (applyRecs [] rs) (Operation.Set k v)) q = _
      simp only [applyOp]
      rw [lookupA_insertA, lookupA_insertA]
      by_cases hq : q = k
      · simp [hq]
      · simp [hq, hm q]
    · intro k2 p2 hl
      rw [lookupA_insertA] at hl
      by_cases hk : k2 = k
      · subst hk
        rw [if_pos rfl] at hl
        simp at hl
        subst hl
        refine ⟨rfl, v, sliceDec_new content 1 (.Set k2 v), ?_⟩
        rw [lookupA_insertA_self]
      · rw [if_neg hk] at hl
        obtain ⟨hfid, v2, hslice, hval⟩ := Hidx k2 p2 hl
        refine ⟨hfid, v2, sliceDec_append _ _ _ _ hslice, ?_⟩
        rw [lookupA_insertA_ne _ _ _ _ hk]
        exact hval
    · intro k2 hl
      rw [lookupA_insertA] at hl
      by_cases hk : k2 = k
      · subst hk
        simp at hl
      · rw [if_neg hk] at hl
        rw [lookupA_insertA_ne _ _ _ _ hk]
        exact Hnone k2 hl

theorem deleteLogs_sem : ∀ (fids : List Nat) (fs : FS),
    fids.Nodup →
    (∀ i, i ∈ fids → (lookupA fs.logs i).isSome = true) →
    ∃ fs2, deleteLogs fids fs = (.ok (), fs2) ∧
      fs2.staging = fs.staging ∧
      (∀ q, lookupA fs2.logs q = if q ∈ fids then none else lookupA fs.logs q) ∧
      ((∀ e, e ∈ fs.logs → e.1 ∈ fids) → fs2.logs = []) := by
  intro fids
  induction fids with
  | nil =>
    intro fs hnd hex
    refine ⟨fs, rfl, rfl, ?_, ?_⟩
    · intro q
      simp
    · intro hall
      cases hl : fs.logs with
      | nil => rfl
      | cons e t =>
        have := hall e (by rw [hl]; simp)
        simp at this
  | cons i rest ih =>
    intro fs hnd hex
    have hi : (lookupA fs.logs i).isSome = true := hex i (by simp)
    obtain ⟨content, hcontent⟩ := Option.isSome_iff_exists.mp hi
    have hstep : deleteLogs (i :: rest) fs =
        deleteLogs rest { fs with logs := eraseA fs.logs i } := by
      simp only [deleteLogs, hcontent]
    have hndrest : rest.Nodup := by
      simp [List.nodup_cons] at hnd
      exact hnd.2
    have himem : i ∉ rest := by
      simp [List.nodup_cons] at hnd
      exact hnd.1
    obtain ⟨fs2, hdel, hstag, hpoint, hnil⟩ :=
      ih { fs with logs := eraseA fs.logs i } hndrest
        (by
          intro j hj
          have hne : j ≠ i := fun h => himem (h ▸ hj)
          simp only []
          rw [lookupA_eraseA, if_neg hne]
          exact hex j (by simp [hj]))
    refine ⟨fs2, by rw [hstep]; exact hdel, hstag, ?_, ?_⟩
    · intro q
      rw [hpoint q]
      by_cases hq : q ∈ rest
      · simp [hq]
      · by_cases hqi : q = i
        · subst hqi
          simp [hq, lookupA_eraseA_self]
        · simp only []
          rw [lookupA_eraseA, if_neg hqi]
          simp [hq, hqi]
    · intro hall
      refine hnil ?_
      intro e he
      simp only [] at he
      have hmem : e ∈ fs.logs := List.mem_of_mem_filter he
      have hne : e.1 ≠ i := by
        have := List.of_mem_filter he
        simpa using this
      have := hall e hmem
      rcases List.mem_cons.mp this with h | h
      · exact absurd h hne
      · exact h

theorem lookupA_foldl_insertA : ∀ (temp : List (Str × Str)) (m0 : List (Str × Str)) (q : Str),
    (temp.map Prod.fst).Nodup →
    lookupA (temp.foldl (fun m2 pr => insertA m2 pr.1 pr.2) m0) q =
      match lookupA temp q with
      | some v => some v
      | none => lookupA m0 q := by
  intro temp
  induction temp with
  | nil =>
    intro m0 q hnd
    simp [lookupA]
  | cons kv rest ih =>
    intro m0 q hnd
    obtain ⟨k, v⟩ := kv
    simp only [List.map_cons, List.nodup_cons] at hnd
    have hstep : ((k, v) :: rest).foldl (fun m2 pr => insertA m2 pr.1 pr.2) m0 =
        rest.foldl (fun m2 pr => insertA m2 pr.1 pr.2) (insertA m0 k v) := by
      simp
    rw [hstep, ih (insertA m0 k v) q hnd.2]
    by_cases hq : q = k
    · subst hq
      have : lookupA rest q = none := by
        cases hlr : lookupA rest q with
        | none => rfl
        | some w =>
          exact absurd (lookupA_some_mem _ _ _ hlr) hnd.1
      simp [this, lookupA, lookupA_insertA_self]
    · simp only [lookupA, if_neg hq]
      cases lookupA rest q with
      | none => rw [lookupA_insertA_ne _ _ _ _ hq]
      | some w => rfl

theorem compact_sem (s : KvStore) (fs : FS) (hInv : StoreInv s fs) :
    ∃ s2 fs2, s.compact fs = (.ok (), s2, fs2) ∧ StoreInv s2 fs2 ∧
      (∀ q, lookupA (Mof fs2) q = lookupA (Mof fs) q) := by
  obtain ⟨temp2, sm, hmat, hIm, hix, hrd, hval, hnd2⟩ :=
    materialize_sem fs (s.index.map Prod.fst) s [] hInv
      (by
        intro q
        cases hl : lookupA s.index q with
        | none => exact Or.inl (by rw [hInv.indexNone q hl]; rfl)
        | some p => exact Or.inr ⟨rfl, lookupA_some_mem _ _ _ hl⟩)
      (by simp)
  have hexist : fs.staging.getD [] = [] := by rw [hInv.staging]; rfl
  obtain ⟨rsF, hdecF, hmF, HidxF, HnoneF⟩ :=
    writeStagingGo_sem temp2 [] [] [] [] decodeAllR_nil
      (by intro q; rfl)
      (by intro k p hl; simp [lookupA] at hl)
      (by intro k hl; rfl)
  simp only [List.length_nil] at hdecF HidxF HnoneF
  set stContent := (writeStagingGo temp2 [] 0 []).1 with hst
  set newIndex := (writeStagingGo temp2 [] 0 []).2 with hni
  have hfids : sm.readers.map Prod.fst = s.readers.map Prod.fst := hrd
  obtain ⟨fs3, hdel, hstag3, hpoint3, hnil3⟩ :=
    deleteLogs_sem (sm.readers.map Prod.fst) { fs with staging := some stContent }
      (by rw [hfids]; exact hInv.readersNodup)
      (by
        intro i hi
        rw [hfids] at hi
        have h1 := mem_lookupA_isSome _ _ hi
        have h2 := hInv.readersLogs i
        rw [h2] at h1
        exact h1)
  have hlogsnil : fs3.logs = [] := by
    refine hnil3 ?_
    intro e he
    simp only [] at he
    have hm1 : e.1 ∈ fs.logs.map Prod.fst := List.mem_map_of_mem Prod.fst he
    have hs1 := mem_lookupA_isSome _ _ hm1
    rw [← hInv.readersLogs e.1] at hs1
    obtain ⟨w, hw⟩ := Option.isSome_iff_exists.mp hs1
    rw [hfids]
    exact lookupA_some_mem _ _ _ hw
  have hstag3b : fs3.staging = some stContent := by rw [hstag3]
  -- unfold compact along the computed path
  have hcompact : s.compact fs = (.ok (),
      ⟨insertA (insertA [] 1 (Target.log 1, 0)) 2 (Target.log 2, 0), ⟨Target.log 2, 0⟩,
        newIndex, 2, 0⟩,
      { logs := insertA (insertA fs3.logs 1 stContent) 2 [], staging := none }) := by
    unfold KvStore.compact
    rw [hmat]
    simp only []
    rw [hexist]
    have hws : writeStagingGo temp2 [] 0 [] = (stContent, newIndex) := rfl
    rw [hws]
    simp only []
    rw [hdel]
    simp only []
    rw [hstag3b]
    simp only [newLogFile]
    have h2none : lookupA (insertA fs3.logs 1 stContent) 2 = none := by
      rw [hlogsnil]
      simp [insertA, lookupA]
    rw [h2none]
  rw [hlogsnil] at hcompact
  -- the final file system and store
  have hlogs5 : insertA (insertA ([] : List (Nat × Str)) 1 stContent) 2 [] =
      [(1, stContent), (2, [])] := by
    simp [insertA]
  rw [hlogs5] at hcompact
  set fs5 : FS := { logs := [(1, stContent), (2, [])], staging := none } with hfs5
  set s4 : KvStore := ⟨insertA (insertA [] 1 (Target.log 1, 0)) 2 (Target.log 2, 0),
    ⟨Target.log 2, 0⟩, newIndex, 2, 0⟩ with hs4
  have hMof5 : ∀ q, lookupA (Mof fs5) q = lookupA (Mof fs) q := by
    intro q
    have hall5 : allRecs fs5 = rsF ++ [] := by
      unfold allRecs sortLog
      have hfst5 : fs5.logs.map Prod.fst = [1, 2] := rfl
      rw [hfst5]
      have hsort12 : sortIds [1, 2] = [1, 2] := rfl
      rw [hsort12]
      have hr1 : recsOfLog fs5 1 = rsF := by
        unfold recsOfLog
        have : lookupA fs5.logs 1 = some stContent := by simp [hfs5, lookupA]
        rw [this]
        simp [hdecF]
      have hr2 : recsOfLog fs5 2 = [] := by
        unfold recsOfLog
        have : lookupA fs5.logs 2 = some [] := by simp [hfs5, lookupA]
        rw [this]
        simp [decodeAllR_nil]
      simp [hr1, hr2]
    have hM5eq : Mof fs5 = applyRecs [] (rsF ++ []) := by
      unfold Mof
      rw [hall5]
    rw [hM5eq, List.append_nil, hmF q, lookupA_foldl_insertA temp2 [] q hnd2, hval q]
    cases lookupA (Mof fs) q with
    | none => rfl
    | some v => rfl
  refine ⟨s4, fs5, hcompact, ?_, hMof5⟩
  refine ⟨rfl, rfl, ?_, ?_, ?_, ?_, ?_, ?_, ?_, ?_, ?_⟩
  · exact ⟨[], by simp [hfs5, lookupA], rfl⟩
  · intro i
    by_cases h1 : i = 1
    · subst h1
      simp [hs4, hfs5, lookupA, insertA]
    · by_cases h2 : i = 2
      · subst h2
        simp [hs4, hfs5, lookupA, insertA]
      · simp [hs4, hfs5, lookupA, insertA, h1, h2]
  · intro i t c hl
    simp only [hs4, insertA, lookupA] at hl
    by_cases h2 : i = 2
    · subst h2
      simp at hl
      simp [hl.1]
    · rw [if_neg h2] at hl
      by_cases h1 : i = 1
      · subst h1
        simp at hl
        simp [hl.1]
      · rw [if_neg h1] at hl
        simp at hl
  · simp [hs4, insertA]
  · intro i content hc
    by_cases h1 : i = 1
    · subst h1
      have hlk : lookupA fs5.logs 1 = some stContent := by simp [hfs5, lookupA]
      rw [hlk] at hc
      injection hc with hc2
      rw [← hc2]
      simp [hdecF]
    · by_cases h2 : i = 2
      · subst h2
        have hlk : lookupA fs5.logs 2 = some [] := by simp [hfs5, lookupA]
        rw [hlk] at hc
        injection hc with hc2
        rw [← hc2]
        simp [decodeAllR_nil]
      · simp [hfs5, lookupA, h1, h2] at hc
  · intro i hc
    by_cases h1 : i = 1
    · subst h1
      simp [hs4]
    · by_cases h2 : i = 2
      · subst h2
        simp [hs4]
      · simp [hfs5, lookupA, h1, h2] at hc
  · simp [hfs5]
  · intro k p hl
    obtain ⟨hfid, v, hslice, hv⟩ := HidxF k p hl
    refine ⟨v, ⟨stContent, ?_, hslice⟩, ?_⟩
    · rw [hfid]
      simp [hfs5, lookupA]
    · rw [lookupA_foldl_insertA temp2 [] k hnd2] at hv
      rw [hMof5 k, ← hval k]
      cases htk : lookupA temp2 k with
      | none =>
        rw [htk] at hv
        simp [lookupA] at hv
      | some w =>
        rw [htk] at hv
        simpa using hv
  · intro k hl
    have hv := HnoneF k hl
    rw [lookupA_foldl_insertA temp2 [] k hnd2] at hv
    rw [hMof5 k, ← hval k]
    cases htk : lookupA temp2 k with
    | none => rfl
    | some w =>
      rw [htk] at hv
      simp at hv

theorem newLog_inv (fs : FS) (readers : List (Nat × Target × Nat))
    (idx : List (Str × Pointer)) (nfid : Nat)
    (hstag : fs.staging = none)
    (hfresh : lookupA fs.logs nfid = none)
    (hmax : ∀ i, (lookupA fs.logs i).isSome = true → i < nfid)
    (hRL : ∀ i, (lookupA readers i).isSome = (lookupA fs.logs i).isSome)
    (hRT : ∀ i t c, lookupA readers i = some (t, c) → t = Target.log i)
    (hRN : (readers.map Prod.fst).Nodup)
    (hWF : ∀ i content, lookupA fs.logs i = some content → (decodeAllR content).isSome)
    (hND : (fs.logs.map Prod.fst).Nodup)
    (hIG : ∀ k p, lookupA idx k = some p → ∃ v, GoodPtrV fs k p v ∧
      lookupA (Mof fs) k = some v)
    (hIN : ∀ k, lookupA idx k = none → lookupA (Mof fs) k = none) :
    (∀ rub, StoreInv ⟨insertA readers nfid (Target.log nfid, 0), ⟨Target.log nfid, 0⟩,
      idx, nfid, rub⟩ { fs with logs := insertA fs.logs nfid [] }) ∧
    Mof { fs with logs := insertA fs.logs nfid [] } = Mof fs := by
  have hMeq : Mof { fs with logs := insertA fs.logs nfid [] } = Mof fs := by
    unfold Mof
    rw [allRecs_fresh_log fs nfid hfresh (fun i hi => Nat.le_of_lt (hmax i hi))]
  refine ⟨?_, hMeq⟩
  intro rub
  refine ⟨hstag, rfl, ?_, ?_, ?_, ?_, ?_, ?_, ?_, ?_, ?_⟩
  · exact ⟨[], by simp [lookupA_insertA_self], rfl⟩
  · intro i
    simp only [lookupA_insertA]
    by_cases hi : i = nfid
    · simp [hi]
    · simp only [if_neg hi]
      exact hRL i
  · intro i t c hl
    rw [lookupA_insertA] at hl
    by_cases hi : i = nfid
    · subst hi
      simp at hl
      simp [hl.1]
    · rw [if_neg hi] at hl
      exact hRT i t c hl
  · exact nodup_mapFst_insertA _ _ _ hRN
  · intro i content hc
    simp only [] at hc
    rw [lookupA_insertA] at hc
    by_cases hi : i = nfid
    · rw [if_pos hi] at hc
      injection hc with hc2
      rw [← hc2]
      simp [decodeAllR_nil]
    · rw [if_neg hi] at hc
      exact hWF i content hc
  · intro i hc
    simp only [] at hc
    rw [lookupA_insertA] at hc
    by_cases hi : i = nfid
    · exact Nat.le_of_eq hi
    · rw [if_neg hi] at hc
      exact Nat.le_of_lt (hmax i hc)
  · simp only []
    rw [mapFst_insertA_none _ _ _ hfresh]
    have hnot : nfid ∉ fs.logs.map Prod.fst := by
      intro hmem
      have := mem_lookupA_isSome _ _ hmem
      simp [hfresh] at this
    simp [List.nodup_append, hND, hnot]
  · intro k p hl
    obtain ⟨v, ⟨content, hcont, hslice⟩, hm⟩ := hIG k p hl
    refine ⟨v, ⟨content, ?_, hslice⟩, ?_⟩
    · simp only []
      rw [lookupA_insertA]
      have hne : p.fid ≠ nfid := by
        intro h
        rw [h, hfresh] at hcont
        exact Option.noConfusion hcont
      rw [if_neg hne]
      exact hcont
    · rw [hMeq]
      exact hm
  · intro k hl
    rw [hMeq]
    exact hIN k hl

theorem mid_inv (s : KvStore) (fs : FS) (key value : Str) (hInv : StoreInv s fs)
    (ca : Str) (hca : lookupA fs.logs s.fid = some ca) (hpos : s.writer.pos = ca.length) :
    ∀ rub, StoreInv
      ⟨s.readers, ⟨s.writer.target, s.writer.pos + (encodeOp (.Set key value)).length⟩,
        insertA s.index key ⟨s.fid, s.writer.pos, (encodeOp (.Set key value)).length⟩,
        s.fid, rub⟩
      (fs.writeTarget s.writer.target (encodeOp (.Set key value))) := by
  intro rub
  have hwt := hInv.writerTarget
  obtain ⟨rsa, hrsa⟩ := Option.isSome_iff_exists.mp (hInv.logsWF s.fid ca hca)
  have hAW := allRecs_write_active fs s.fid ca (Operation.Set key value) hInv.nodupLogs hca
    rsa hrsa hInv.fidMax
  have hlogs2 : (fs.writeTarget s.writer.target (encodeOp (.Set key value))).logs =
      insertA fs.logs s.fid (ca ++ encodeOp (.Set key value)) := by
    rw [hwt]
    simp [FS.writeTarget, hca]
  have hstag2 : (fs.writeTarget s.writer.target (encodeOp (.Set key value))).staging =
      fs.staging := by
    rw [hwt]
    simp [FS.writeTarget]
  have hM2 : Mof (fs.writeTarget s.writer.target (encodeOp (.Set key value))) =
      insertA (Mof fs) key value := by
    rw [hwt]
    unfold Mof
    rw [hAW, applyRecs_append]
    rfl
  have hfst2 : (insertA fs.logs s.fid (ca ++ encodeOp (.Set key value))).map Prod.fst =
      fs.logs.map Prod.fst := mapFst_insertA_some _ _ _ (by simp [hca])
  refine ⟨by rw [hstag2]; exact hInv.staging, hwt, ?_, ?_, hInv.readersTarget,
    hInv.readersNodup, ?_, ?_, ?_, ?_, ?_⟩
  · refine ⟨ca ++ encodeOp (.Set key value), ?_, ?_⟩
    · rw [hlogs2, lookupA_insertA_self]
    · simp [hpos]
  · intro i
    rw [hInv.readersLogs i, hlogs2, lookupA_insertA]
    by_cases hi : i = s.fid
    · subst hi
      simp [hca]
    · simp [hi]
  · intro i content hc
    rw [hlogs2, lookupA_insertA] at hc
    by_cases hi : i = s.fid
    · rw [if_pos hi] at hc
      injection hc with hc2
      rw [← hc2]
      simp [decodeAllR_snoc ca rsa hrsa]
    · rw [if_neg hi] at hc
      exact hInv.logsWF i content hc
  · intro i hc
    rw [hlogs2] at hc
    rw [lookupA_insertA] at hc
    by_cases hi : i = s.fid
    · exact Nat.le_of_eq hi
    · rw [if_neg hi] at hc
      exact hInv.fidMax i hc
  · rw [hlogs2, hfst2]
    exact hInv.nodupLogs
  · intro k p hl
    simp only [] at hl
    rw [lookupA_insertA] at hl
    by_cases hk : k = key
    · subst hk
      rw [if_pos rfl] at hl
      injection hl with hl2
      refine ⟨value, ⟨ca ++ encodeOp (.Set k value), ?_, ?_⟩, ?_⟩
      · rw [← hl2]
        simp only []
        rw [hlogs2, lookupA_insertA_self]
      · rw [← hl2]
        have := sliceDec_new ca s.fid (.Set k value)
        rw [← hpos] at this
        exact this
      · rw [hM2, lookupA_insertA_self]
    · rw [if_neg hk] at hl
      obtain ⟨v, ⟨content, hcont, hslice⟩, hm⟩ := hInv.indexGood k p hl
      refine ⟨v, ⟨?_, ?_, ?_⟩, ?_⟩
      case _ =>
        exact if p.fid = s.fid then ca ++ encodeOp (.Set key value) else content
      · by_cases hpf : p.fid = s.fid
        · simp only [if_pos hpf]
          rw [hlogs2, hpf, lookupA_insertA_self]
        · simp only [if_neg hpf]
          rw [hlogs2, lookupA_insertA_ne _ _ _ _ hpf]
          exact hcont
      · by_cases hpf : p.fid = s.fid
        · simp only [if_pos hpf]
          have hceq : content = ca := by
            rw [hpf, hca] at hcont
            injection hcont with h
            exact h.symm
          rw [← hceq]
          exact sliceDec_append _ _ _ _ hslice
        · simp only [if_neg hpf]
          exact hslice
      · rw [hM2, lookupA_insertA_ne _ _ _ _ hk]
        exact hm
  · intro k hl
    simp only [] at hl
    rw [lookupA_insertA] at hl
    by_cases hk : k = key
    · rw [if_pos hk] at hl
      exact Option.noConfusion hl
    · rw [if_neg hk] at hl
      rw [hM2, lookupA_insertA_ne _ _ _ _ hk]
      exact hInv.indexNone k hl

theorem set_sem_branches (s : KvStore) (fs : FS) (key value : Str) (hInv : StoreInv s fs)
    (ca : Str) (hca : lookupA fs.logs s.fid = some ca) (hpos : s.writer.pos = ca.length)
    (rub : Nat) :
    ∃ s2 fs2,
      (if COMPACT_THRESHOLD ≤ rub then
        KvStore.compact
          ⟨s.readers, ⟨s.writer.target,
              s.writer.pos + (encodeOp (Operation.Set key value)).length⟩,
            insertA s.index key
              ⟨s.fid, s.writer.pos, (encodeOp (Operation.Set key value)).length⟩,
            s.fid, rub⟩
          (fs.writeTarget s.writer.target (encodeOp (Operation.Set key value)))
      else
        if SINGLE_LOG_SIZE ≤ s.writer.pos then
          (Except.ok (),
            ⟨(newLogFile (s.fid + 1)
                (fs.writeTarget s.writer.target (encodeOp (Operation.Set key value)))
                s.readers).2.2,
              (newLogFile (s.fid + 1)
                (fs.writeTarget s.writer.target (encodeOp (Operation.Set key value)))
                s.readers).1,
              insertA s.index key
                ⟨s.fid, s.writer.pos, (encodeOp (Operation.Set key value)).length⟩,
              s.fid + 1, rub⟩,
            (newLogFile (s.fid + 1)
              (fs.writeTarget s.writer.target (encodeOp (Operation.Set key value)))
              s.readers).2.1)
        else
          (Except.ok (),
            ⟨s.readers, ⟨s.writer.target,
                s.writer.pos + (encodeOp (Operation.Set key value)).length⟩,
              insertA s.index key
                ⟨s.fid, s.writer.pos, (encodeOp (Operation.Set key value)).length⟩,
              s.fid, rub⟩,
            fs.writeTarget s.writer.target (encodeOp (Operation.Set key value)))) =
        (.ok (), s2, fs2) ∧ StoreInv s2 fs2 := by
  have hmid := mid_inv s fs key value hInv ca hca hpos
  by_cases hcomp : COMPACT_THRESHOLD ≤ rub
  · rw [if_pos hcomp]
    obtain ⟨s2, fs2, hc, hI, hM⟩ := compact_sem _ _ (hmid rub)
    exact ⟨s2, fs2, hc, hI⟩
  · rw [if_neg hcomp]
    by_cases hroll : SINGLE_LOG_SIZE ≤ s.writer.pos
    · rw [if_pos hroll]
      have Imid := hmid rub
      have hfresh : lookupA
          (fs.writeTarget s.writer.target (encodeOp (Operation.Set key value))).logs
          (s.fid + 1) = none := by
        cases h : lookupA
            (fs.writeTarget s.writer.target (encodeOp (Operation.Set key value))).logs
            (s.fid + 1) with
        | none => rfl
        | some c =>
          have h2 := Imid.fidMax (s.fid + 1) (by simp [h])
          simp only [] at h2
          omega
      have hNLF : newLogFile (s.fid + 1)
          (fs.writeTarget s.writer.target (encodeOp (Operation.Set key value))) s.readers =
          (⟨Target.log (s.fid + 1), 0⟩,
            { fs.writeTarget s.writer.target (encodeOp (Operation.Set key value)) with
                logs := insertA
                  (fs.writeTarget s.writer.target (encodeOp (Operation.Set key value))).logs
                  (s.fid + 1) [] },
            insertA s.readers (s.fid + 1) (Target.log (s.fid + 1), 0)) := by
        unfold newLogFile
        rw [hfresh]
      obtain ⟨hInvNew, hMeq⟩ := newLog_inv
        (fs.writeTarget s.writer.target (encodeOp (Operation.Set key value)))
        s.readers
        (insertA s.index key
          ⟨s.fid, s.writer.pos, (encodeOp (Operation.Set key value)).length⟩)
        (s.fid + 1)
        Imid.staging hfresh
        (fun i hi => Nat.lt_succ_of_le (Imid.fidMax i hi))
        Imid.readersLogs Imid.readersTarget Imid.readersNodup
        Imid.logsWF Imid.nodupLogs Imid.indexGood Imid.indexNone
      rw [hNLF]
      exact ⟨_, _, rfl, hInvNew rub⟩
    · rw [if_neg hroll]
      exact ⟨_, _, rfl, hmid rub⟩

theorem set_sem (s : KvStore) (fs : FS) (key value : Str) (hInv : StoreInv s fs) :
    ∃ s2 fs2, s.set fs key value = (.ok (), s2, fs2) ∧ StoreInv s2 fs2 := by
  obtain ⟨ca, hca, hpos⟩ := hInv.activeContent
  unfold KvStore.set
  simp only []
  cases hold : lookupA s.index key with
  | some old =>
    simp only [hold]
    exact set_sem_branches s fs key value hInv ca hca hpos (s.rubbish + old.len)
  | none =>
    simp only [hold]
    exact set_sem_branches s fs key value hInv ca hca hpos s.rubbish

theorem rm_mid_inv (s : KvStore) (fs : FS) (key : Str) (hInv : StoreInv s fs)
    (ca : Str) (hca : lookupA fs.logs s.fid = some ca) (hpos : s.writer.pos = ca.length) :
    ∀ rub, StoreInv
      ⟨s.readers, ⟨s.writer.target, s.writer.pos + (encodeOp (.Rm key)).length⟩,
        eraseA s.index key, s.fid, rub⟩
      (fs.writeTarget s.writer.target (encodeOp (.Rm key))) := by
  intro rub
  have hwt := hInv.writerTarget
  obtain ⟨rsa, hrsa⟩ := Option.isSome_iff_exists.mp (hInv.logsWF s.fid ca hca)
  have hAW := allRecs_write_active fs s.fid ca (Operation.Rm key) hInv.nodupLogs hca
    rsa hrsa hInv.fidMax
  have hlogs2 : (fs.writeTarget s.writer.target (encodeOp (.Rm key))).logs =
      insertA fs.logs s.fid (ca ++ encodeOp (.Rm key)) := by
    rw [hwt]
    simp [FS.writeTarget, hca]
  have hstag2 : (fs.writeTarget s.writer.target (encodeOp (.Rm key))).staging =
      fs.staging := by
    rw [hwt]
    simp [FS.writeTarget]
  have hM2 : Mof (fs.writeTarget s.writer.target (encodeOp (.Rm key))) =
      eraseA (Mof fs) key := by
    rw [hwt]
    unfold Mof
    rw [hAW, applyRecs_append]
    rfl
  have hfst2 : (insertA fs.logs s.fid (ca ++ encodeOp (.Rm key))).map Prod.fst =
      fs.logs.map Prod.fst := mapFst_insertA_some _ _ _ (by simp [hca])
  refine ⟨by rw [hstag2]; exact hInv.staging, hwt, ?_, ?_, hInv.readersTarget,
    hInv.readersNodup, ?_, ?_, ?_, ?_, ?_⟩
  · refine ⟨ca ++ encodeOp (.Rm key), ?_, ?_⟩
    · rw [hlogs2, lookupA_insertA_self]
    · simp [hpos]
  · intro i
    rw [hInv.readersLogs i, hlogs2, lookupA_insertA]
    by_cases hi : i = s.fid
    · subst hi
      simp [hca]
    · simp [hi]
  · intro i content hc
    rw [hlogs2, lookupA_insertA] at hc
    by_cases hi : i = s.fid
    · rw [if_pos hi] at hc
      injection hc with hc2
      rw [← hc2]
      simp [decodeAllR_snoc ca rsa hrsa]
    · rw [if_neg hi] at hc
      exact hInv.logsWF i content hc
  · intro i hc
    rw [hlogs2] at hc
    rw [lookupA_insertA] at hc
    by_cases hi : i = s.fid
    · exact Nat.le_of_eq hi
    · rw [if_neg hi] at hc
      exact hInv.fidMax i hc
  · rw [hlogs2, hfst2]
    exact hInv.nodupLogs
  · intro k p hl
    simp only [] at hl
    rw [lookupA_eraseA] at hl
    by_cases hk : k = key
    · rw [if_pos hk] at hl
      exact Option.noConfusion hl
    · rw [if_neg hk] at hl
      obtain ⟨v, ⟨content, hcont, hslice⟩, hm⟩ := hInv.indexGood k p hl
      refine ⟨v, ⟨?_, ?_, ?_⟩, ?_⟩
      case _ =>
        exact if p.fid = s.fid then ca ++ encodeOp (.Rm key) else content
      · by_cases hpf : p.fid = s.fid
        · simp only [if_pos hpf]
          rw [hlogs2, hpf, lookupA_insertA_self]
        · simp only [if_neg hpf]
          rw [hlogs2, lookupA_insertA_ne _ _ _ _ hpf]
          exact hcont
      · by_cases hpf : p.fid = s.fid
        · simp only [if_pos hpf]
          have hceq : content = ca := by
            rw [hpf, hca] at hcont
            injection hcont with h
            exact h.symm
          rw [← hceq]
          exact sliceDec_append _ _ _ _ hslice
        · simp only [if_neg hpf]
          exact hslice
      · rw [hM2, lookupA_eraseA, if_neg hk]
        exact hm
  · intro k hl
    simp only [] at hl
    rw [lookupA_eraseA] at hl
    rw [hM2, lookupA_eraseA]
    by_cases hk : k = key
    · rw [if_pos hk]
    · rw [if_neg hk] at hl
      rw [if_neg hk]
      exact hInv.indexNone k hl

theorem remove_inv (s : KvStore) (fs : FS) (key : Str) (hInv : StoreInv s fs) :
    StoreInv (s.remove fs key).2.1 (s.remove fs key).2.2 := by
  obtain ⟨ca, hca, hpos⟩ := hInv.activeContent
  unfold KvStore.remove KvStore.removeW
  cases hold : lookupA s.index key with
  | none => exact hInv
  | some old =>
    simp only [if_pos rfl]
    exact rm_mid_inv s fs key hInv ca hca hpos _

theorem open_establishes (fs : FS) (hstag : fs.staging = none)
    (hND : (fs.logs.map Prod.fst).Nodup)
    (s : KvStore) (fs2 : FS) (hopen : KvStore.openStore fs = .ok (s, fs2)) :
    StoreInv s fs2 ∧ Mof fs2 = Mof fs := by
  unfold KvStore.openStore at hopen
  rw [hstag] at hopen
  simp only [] at hopen
  cases hfold : openFold fs (sortLog fs) [] [] 0 with
  | error e => rw [hfold] at hopen; exact Except.noConfusion hopen
  | ok out =>
    obtain ⟨readers, index, rubbish⟩ := out
    rw [hfold] at hopen
    simp only [] at hopen
    have hWFids := openFold_ok_WF fs (sortLog fs) [] [] 0 _ hfold
    obtain ⟨readers2, idx2, rub2, hfold2, hA, hB, hC, hD, hE⟩ :=
      openFold_sem fs (sortLog fs) hWFids [] [] 0 []
        (by intro k p hl; simp [lookupA] at hl)
        (by intro k hl; rfl)
        (by intro i t c hl; simp [lookupA] at hl)
        (by simp)
    rw [hfold] at hfold2
    injection hfold2 with hfold3
    obtain ⟨h1, h2, h3⟩ : readers2 = readers ∧ idx2 = index ∧ rub2 = rubbish := by
      refine ⟨congrArg Prod.fst hfold3.symm, ?_, ?_⟩
      · exact congrArg (fun w => w.2.1) hfold3.symm
      · exact congrArg (fun w => w.2.2) hfold3.symm
    subst h1
    subst h2
    subst h3
    have hmax : ∀ i, (lookupA fs.logs i).isSome = true →
        i < (sortLog fs).getLast?.getD 0 + 1 := by
      intro i hi
      obtain ⟨c, hc⟩ := Option.isSome_iff_exists.mp hi
      have hmem : i ∈ fs.logs.map Prod.fst := lookupA_some_mem _ _ _ hc
      have hmem2 : i ∈ sortLog fs := (sortIds_perm _).mem_iff.mpr hmem
      have hle := sorted_le_getLast (sortLog fs) (sortIds_sorted _) i hmem2
      omega
    have hfresh : lookupA fs.logs ((sortLog fs).getLast?.getD 0 + 1) = none := by
      cases hl : lookupA fs.logs ((sortLog fs).getLast?.getD 0 + 1) with
      | none => rfl
      | some c =>
        have := hmax _ (by rw [hl]; rfl)
        omega
    have hNLF : newLogFile ((sortLog fs).getLast?.getD 0 + 1) fs readers2 =
        (⟨Target.log ((sortLog fs).getLast?.getD 0 + 1), 0⟩,
          { fs with logs := insertA fs.logs ((sortLog fs).getLast?.getD 0 + 1) [] },
          insertA readers2 ((sortLog fs).getLast?.getD 0 + 1)
            (Target.log ((sortLog fs).getLast?.getD 0 + 1), 0)) := by
      unfold newLogFile
      rw [hfresh]
    rw [hNLF] at hopen
    simp only [] at hopen
    injection hopen with hpair
    have hs := congrArg Prod.fst hpair
    have hfs2 := congrArg Prod.snd hpair
    simp only [] at hs hfs2
    have hRL : ∀ i, (lookupA readers2 i).isSome = (lookupA fs.logs i).isSome := by
      intro i
      rw [hC i]
      have hmemiff : i ∈ sortLog fs ↔ (lookupA fs.logs i).isSome = true := by
        constructor
        · intro hm
          exact mem_lookupA_isSome _ _ ((sortIds_perm _).mem_iff.mp hm)
        · intro hm
          obtain ⟨c, hc⟩ := Option.isSome_iff_exists.mp hm
          exact (sortIds_perm _).mem_iff.mpr (lookupA_some_mem _ _ _ hc)
      cases hfs : (lookupA fs.logs i).isSome with
      | true =>
        simp [lookupA, hmemiff.mpr hfs]
      | false =>
        have : i ∉ sortLog fs := by
          intro hm
          rw [hmemiff.mp hm] at hfs
          exact Bool.noConfusion hfs
        simp [lookupA, this]
    have hIG : ∀ k p, lookupA idx2 k = some p → ∃ v, GoodPtrV fs k p v ∧
        lookupA (Mof fs) k = some v := by
      intro k p hl
      obtain ⟨v, hv1, hv2⟩ := hA k p hl
      exact ⟨v, hv1, hv2⟩
    have hIN : ∀ k, lookupA idx2 k = none → lookupA (Mof fs) k = none := by
      intro k hl
      exact hB k hl
    obtain ⟨hInvNew, hMeq⟩ := newLog_inv fs readers2 idx2
      ((sortLog fs).getLast?.getD 0 + 1) hstag hfresh hmax hRL hD hE
      (fun i content hc => by
        obtain ⟨c2, hc2, hdec2⟩ := hWFids i
          ((sortIds_perm _).mem_iff.mpr (lookupA_some_mem _ _ _ hc))
        rw [hc] at hc2
        injection hc2 with hceq
        rw [hceq]
        exact hdec2)
      hND hIG hIN
    constructor
    · rw [← hs, ← hfs2]
      exact hInvNew rub2
    · rw [← hfs2]
      exact hMeq

theorem open_succeeds (fs : FS) (hstag : fs.staging = none)
    (hWF : ∀ i content, lookupA fs.logs i = some content → (decodeAllR content).isSome) :
    ∃ s2 fs2, KvStore.openStore fs = .ok (s2, fs2) := by
  unfold KvStore.openStore
  rw [hstag]
  simp only []
  obtain ⟨readers2, idx2, rub2, hfold, hrest⟩ :=
    openFold_sem fs (sortLog fs)
      (by
        intro i hi
        have hmem : i ∈ fs.logs.map Prod.fst := (sortIds_perm _).mem_iff.mp hi
        obtain ⟨c, hc⟩ := Option.isSome_iff_exists.mp (mem_lookupA_isSome _ _ hmem)
        exact ⟨c, hc, hWF i c hc⟩)
      [] [] 0 []
      (by intro k p hl; simp [lookupA] at hl)
      (by intro k hl; rfl)
      (by intro i t c hl; simp [lookupA] at hl)
      (by simp)
  rw [hfold]
  exact ⟨_, _, rfl⟩

theorem runCmds_inv : ∀ (p : List Cmd) (s : KvStore) (fs : FS), StoreInv s fs →
    ∀ s2 fs2, runCmds s fs p = .ok (s2, fs2) → StoreInv s2 fs2 := by
  intro p
  induction p with
  | nil =>
    intro s fs hInv s2 fs2 h
    simp only [runCmds] at h
    injection h with hpair
    have hs := congrArg Prod.fst hpair
    have hfs := congrArg Prod.snd hpair
    simp only [] at hs hfs
    rw [← hs, ← hfs]
    exact hInv
  | cons c rest ih =>
    intro s fs hInv s2 fs2 h
    cases c with
    | set k v =>
      obtain ⟨s3, fs3, hset, hI3⟩ := set_sem s fs k v hInv
      simp only [runCmds] at h
      rw [hset] at h
      exact ih s3 fs3 hI3 s2 fs2 h
    | rm k =>
      have hI3 := remove_inv s fs k hInv
      simp only [runCmds] at h
      cases hrm : s.remove fs k with
      | mk r rest2 =>
        obtain ⟨s3, fs3⟩ := rest2
        rw [hrm] at h
        rw [hrm] at hI3
        cases r with
        | ok u =>
          simp only [] at h hI3
          exact ih s3 fs3 hI3 s2 fs2 h
        | error e =>
          simp only [] at h
          exact Except.noConfusion h

/-- C1: the read-your-write property fails on the code. On the directory
c1Dir, open takes the crash-recovery path and creates the writer for the
pre-existing non-empty segment 2.log with pos = 0 while the append-mode file
keeps its old content, so set(k, v) records location (2, 0, 17) although the
record lands at offset 17; the immediately following get(k) reads the stale
record at offset 0 and returns Ok(Some "w") instead of Ok(Some "v"). -/
theorem C1_read_your_write_bug :
    c1Run = some (.ok (), .ok (some ['w'])) ∧ (['w'] : Str) ≠ ['v'] := by
  constructor
  · rfl
  · decide

/-- C6: compaction does not create or truncate the staging file; it opens
not_commit.dat with create+append only. In a store opened through crash
recovery the staging file still exists with its old content, so the record
written by compaction lands after the old content while the rebuilt Index
records offset 0; compaction succeeds, the renamed 1.log holds the old
record followed by the new one, and the next get fails with Serde because
the recorded window covers a prefix of the old record. -/
theorem C6_staging_not_truncated_bug :
    c6Run = some (.ok (), .ok (), some ⟨1, 0, 17⟩,
      some (encodeOp (.Set ['a'] ['b', 'b']) ++ encodeOp (.Set ['a'] ['c'])),
      .error .Serde) ∧
    (encodeOp (.Set ['a'] ['b', 'b']) ++ encodeOp (.Set ['a'] ['c'])).take 17 ≠
      encodeOp (.Set ['a'] ['c']) := by
  constructor
  · rfl
  · decide

/-- C2: persistence across reopen. For every directory without a staging
file, every store opened on it, and every sequence of successful set/remove
commands, dropping the store (all writes are already flushed in the model;
drop adds nothing) and opening a new store on the resulting directory
succeeds and yields a store whose get returns the same result as the
original store for every key. -/
theorem C2_persistence (fs0 : FS) (hstag : fs0.staging = none)
    (hND : (fs0.logs.map Prod.fst).Nodup)
    (s0 : KvStore) (fs1 : FS) (hopen : KvStore.openStore fs0 = .ok (s0, fs1))
    (p : List Cmd) (s : KvStore) (fs : FS) (hrun : runCmds s0 fs1 p = .ok (s, fs)) :
    ∃ s2 fs2, KvStore.openStore fs = .ok (s2, fs2) ∧
      ∀ k, (s2.get fs2 k).1 = (s.get fs k).1 := by
  obtain ⟨hInv0, hM0⟩ := open_establishes fs0 hstag hND s0 fs1 hopen
  have hInv := runCmds_inv p s0 fs1 hInv0 s fs hrun
  obtain ⟨s2, fs2, hopen2⟩ := open_succeeds fs hInv.staging hInv.logsWF
  obtain ⟨hInv2, hMeq⟩ := open_establishes fs hInv.staging hInv.nodupLogs s2 fs2 hopen2
  refine ⟨s2, fs2, hopen2, ?_⟩
  intro k
  rw [get_res s2 fs2 k hInv2, get_res s fs k hInv, hMeq]

/-- Witness for C2 at a concrete input: the empty directory, the store opened
on it, and the command sequence set("x","10"); set("y","20"). -/
theorem C2_persistence_witness :
    ∃ s2 fs2, KvStore.openStore c2wFS = .ok (s2, fs2) ∧
      ∀ k, (s2.get fs2 k).1 = (c2wS.get c2wFS k).1 :=
  C2_persistence { logs := [], staging := none } rfl (by decide) c2wS0 c2wFS1 rfl
    [.set ['x'] ['1', '0'], .set ['y'] ['2', '0']] c2wS c2wFS rfl

theorem newLogFile_parts (n : Nat) (fs : FS) (r : List (Nat × Target × Nat)) :
    (newLogFile n fs r).1 = ⟨Target.log n, 0⟩ ∧
    (newLogFile n fs r).2.1.staging = fs.staging ∧
    (newLogFile n fs r).2.2 = insertA r n (Target.log n, 0) := by
  unfold newLogFile
  cases lookupA fs.logs n <;> simp

theorem applyRecs_allSet_isSome : ∀ (rs : List Rec),
    (∀ r, r ∈ rs → ∃ k2 v2, r.1 = Operation.Set k2 v2) →
    ∀ (m : List (Str × Str)) k, (lookupA (applyRecs m rs) k).isSome = true ↔
      (k ∈ rs.map (fun r => opKey r.1) ∨ (lookupA m k).isSome = true) := by
  intro rs
  induction rs with
  | nil =>
    intro hset m k
    simp [applyRecs]
  | cons r0 rest ih =>
    intro hset m k
    obtain ⟨k2, v2, hk2⟩ := hset r0 (by simp)
    have hstep : applyRecs m (r0 :: rest) = applyRecs (applyOp m r0.1) rest := by
      simp [applyRecs]
    rw [hstep, ih (fun r hr => hset r (by simp [hr])) (applyOp m r0.1) k]
    rw [hk2]
    simp only [applyOp, List.map_cons, List.mem_cons, opKey]
    rw [lookupA_insertA]
    constructor
    · rintro (h | h)
      · exact Or.inl (Or.inr h)
      · by_cases hk : k = k2
        · exact Or.inl (Or.inl (by rw [hk, hk2]))
        · rw [if_neg hk] at h
          exact Or.inr h
    · rintro ((h | h) | h)
      · rw [hk2] at h
        simp only [opKey] at h
        rw [if_pos h]
        exact Or.inr (by simp)
      · exact Or.inl h
      · by_cases hk : k = k2
        · rw [if_pos hk]
          exact Or.inr (by simp)
        · rw [if_neg hk]
          exact Or.inr h

/-- C3: recovery from a staging file. For every directory in which
not_commit.dat exists and decodes as a stream of Set records, open succeeds
through the crash-recovery path and builds the store exclusively from the
staging file (the segment files of the directory are universally quantified
and never influence the result): every resulting location carries segment id
1, the next active id is 2, the index holds exactly the keys mentioned in
the staging records, and get returns the value of the most recent staging
record for each such key. -/
theorem C3_recover_from_staging (fs : FS) (c : Str) (hstag : fs.staging = some c)
    (rs : List Rec) (hdec : decodeAllR c = some rs)
    (hset : ∀ r, r ∈ rs → ∃ k2 v2, r.1 = Operation.Set k2 v2) :
    ∃ s fs2, KvStore.openStore fs = .ok (s, fs2) ∧
      s.fid = 2 ∧
      (∀ k p, lookupA s.index k = some p → p.fid = 1) ∧
      (∀ k, (lookupA s.index k).isSome = true ↔ k ∈ rs.map (fun r => opKey r.1)) ∧
      (∀ k v, lookupA (applyRecs [] rs) k = some v → (s.get fs2 k).1 = .ok (some v)) := by
  have hload : loadData 1 c [] = .ok ((replayRecs 1 ([], 0, 0) rs).1,
      (replayRecs 1 ([], 0, 0) rs).2.2) := by
    rw [loadData_eq, hdec]
  obtain ⟨HA, HB, hpos⟩ := replayRecs_sem 1 c
    (fun k p v => p.fid = 1 ∧ sliceDec c p (.Set k v))
    (fun pos n k v hs => ⟨rfl, hs⟩) rs c hdec 0 (by simp) (by simp) [] 0 []
    (by intro k p hl; simp [lookupA] at hl)
    (by intro k hl; rfl)
  obtain ⟨hw1, hw2, hw3⟩ := newLogFile_parts 2 fs (insertA [] 1 (Target.staging, c.length))
  have hopen : KvStore.openStore fs = .ok
      (⟨(newLogFile 2 fs (insertA [] 1 (Target.staging, c.length))).2.2,
        (newLogFile 2 fs (insertA [] 1 (Target.staging, c.length))).1,
        (replayRecs 1 ([], 0, 0) rs).1, 2, (replayRecs 1 ([], 0, 0) rs).2.2⟩,
      (newLogFile 2 fs (insertA [] 1 (Target.staging, c.length))).2.1) := by
    unfold KvStore.openStore recoverFromCrash
    rw [hstag]
    simp only [hload]
  refine ⟨_, _, hopen, rfl, ?_, ?_, ?_⟩
  · intro k p hl
    obtain ⟨v, ⟨hfid, hslice⟩, hm⟩ := HA k p hl
    exact hfid
  · intro k
    simp only []
    have hiff := applyRecs_allSet_isSome rs hset [] k
    constructor
    · intro h
      obtain ⟨p, hp⟩ := Option.isSome_iff_exists.mp h
      obtain ⟨v, hg, hm⟩ := HA k p hp
      have h2 : (lookupA (applyRecs [] rs) k).isSome = true := by simp [hm]
      rcases hiff.mp h2 with h3 | h3
      · exact h3
      · exact absurd h3 (by simp [lookupA])
    · intro h
      have h2 : (lookupA (applyRecs [] rs) k).isSome = true := hiff.mpr (Or.inl h)
      cases hl : lookupA (replayRecs 1 ([], 0, 0) rs).1 k with
      | none =>
        rw [HB k hl] at h2
        exact Bool.noConfusion h2
      | some p => rfl
  · intro k v hm
    cases hl : lookupA (replayRecs 1 ([], 0, 0) rs).1 k with
    | none =>
      rw [HB k hl] at hm
      exact Option.noConfusion hm
    | some p =>
      obtain ⟨v2, ⟨hfid, hslice⟩, hm2⟩ := HA k p hl
      rw [hm] at hm2
      injection hm2 with hv
      subst hv
      unfold KvStore.get
      simp only []
      rw [hl]
      simp only []
      have hr1 : lookupA (newLogFile 2 fs (insertA [] 1 (Target.staging, c.length))).2.2
          p.fid = some (Target.staging, c.length) := by
        rw [hw3, hfid]
        simp [lookupA_insertA, insertA, lookupA]
      rw [hr1]
      simp only []
      have hread : FS.readTarget
          (newLogFile 2 fs (insertA [] 1 (Target.staging, c.length))).2.1
          Target.staging = c := by
        unfold FS.readTarget
        rw [hw2, hstag]
        rfl
      rw [hread]
      unfold sliceDec at hslice
      rw [hslice]
      simp

theorem C3_recover_from_staging_witness :
    ∃ s fs2, KvStore.openStore c3fs = .ok (s, fs2) ∧
      s.fid = 2 ∧
      (∀ k p, lookupA s.index k = some p → p.fid = 1) ∧
      (∀ k, (lookupA s.index k).isSome = true ↔ k ∈ c3rs.map (fun r => opKey r.1)) ∧
      (∀ k v, lookupA (applyRecs [] c3rs) k = some v → (s.get fs2 k).1 = .ok (some v)) :=
  C3_recover_from_staging c3fs c3c rfl c3rs rfl
    (by
      intro r hr
      simp only [c3rs, List.mem_cons, List.not_mem_nil, or_false] at hr
      rcases hr with h | h <;> subst h <;> exact ⟨_, _, rfl⟩)

/-- C4 counterexample: index consistency is not preserved by set after an
open that ran crash recovery over a stale non-empty segment. The writer for
2.log starts at pos 0 although the append-mode file keeps its old 17-byte
record, so set(k, v) stores location (2, 0, 17) while the record lands at
offset 17; the recorded window decodes to Set(z, w), not to Set(k, _). -/
theorem C4_counterexample :
    (∃ s1 fs1, c4Run = some (s1, fs1) ∧
      lookupA s1.index ['k'] = some ⟨2, 0, 17⟩ ∧
      lookupA fs1.logs 2 = some c4content) ∧
    ∀ v, ¬ sliceDec c4content ⟨2, 0, 17⟩ (.Set ['k'] v) := by
  constructor
  · exact ⟨_, _, rfl, rfl, rfl⟩
  · intro v h
    have he : sliceDec c4content ⟨2, 0, 17⟩ (.Set ['z'] ['w']) := rfl
    unfold sliceDec at h he
    rw [he] at h
    injection h with h3
    have h2 : Operation.Set ['z'] ['w'] = Operation.Set ['k'] v := congrArg Prod.fst h3
    injection h2 with hk hv
    exact absurd hk (by decide)

/-- C4 (amended): index consistency holds in every store satisfying the
well-formedness invariant StoreInv (which in particular demands that the
writer's position equals the length of the active segment file), it is
established by open on a directory without a staging file, and it is
preserved by set, get, remove and compaction from any StoreInv state. The
original universal claim is refuted by C4_counterexample: after crash
recovery over a stale non-empty segment, set breaks the consistency because
the writer position starts at 0 in an append-mode file. -/
theorem C4_index_consistency (s : KvStore) (fs : FS) (hInv : StoreInv s fs) :
    IndexConsistent s fs ∧
    (∀ fs0, fs0.staging = none → (fs0.logs.map Prod.fst).Nodup →
      ∀ s0 fs1, KvStore.openStore fs0 = .ok (s0, fs1) → IndexConsistent s0 fs1) ∧
    (∀ key value, ∃ s2 fs2, s.set fs key value = (.ok (), s2, fs2) ∧
      IndexConsistent s2 fs2) ∧
    (∀ key, IndexConsistent (s.get fs key).2 fs) ∧
    (∀ key, IndexConsistent (s.remove fs key).2.1 (s.remove fs key).2.2) ∧
    (∃ s2 fs2, s.compact fs = (.ok (), s2, fs2) ∧ IndexConsistent s2 fs2) := by
  have hIC : ∀ s2 fs2, StoreInv s2 fs2 → IndexConsistent s2 fs2 := by
    intro s2 fs2 hI k p hl
    obtain ⟨v, ⟨content, hc, hs⟩, _⟩ := hI.indexGood k p hl
    exact ⟨content, v, hc, hs⟩
  refine ⟨hIC s fs hInv, ?_, ?_, ?_, ?_, ?_⟩
  · intro fs0 h1 h2 s0 fs1 hopen
    exact hIC s0 fs1 (open_establishes fs0 h1 h2 s0 fs1 hopen).1
  · intro key value
    obtain ⟨s2, fs2, hset, hI2⟩ := set_sem s fs key value hInv
    exact ⟨s2, fs2, hset, hIC s2 fs2 hI2⟩
  · intro key
    exact hIC _ _ (storeInv_after_get s fs key hInv)
  · intro key
    exact hIC _ _ (remove_inv s fs key hInv)
  · obtain ⟨s2, fs2, hc, hI2, _⟩ := compact_sem s fs hInv
    exact ⟨s2, fs2, hc, hIC s2 fs2 hI2⟩

/-- Witness for C4 at a concrete input: the store obtained by opening the
empty directory, whose invariant is established by open itself. -/
theorem C4_index_consistency_witness :
    IndexConsistent c4wS c4wFS ∧
    (∀ fs0, fs0.staging = none → (fs0.logs.map Prod.fst).Nodup →
      ∀ s0 fs1, KvStore.openStore fs0 = .ok (s0, fs1) → IndexConsistent s0 fs1) ∧
    (∀ key value, ∃ s2 fs2, c4wS.set c4wFS key value = (.ok (), s2, fs2) ∧
      IndexConsistent s2 fs2) ∧
    (∀ key, IndexConsistent (c4wS.get c4wFS key).2 c4wFS) ∧
    (∀ key, IndexConsistent (c4wS.remove c4wFS key).2.1 (c4wS.remove c4wFS key).2.2) ∧
    (∃ s2 fs2, c4wS.compact c4wFS = (.ok (), s2, fs2) ∧ IndexConsistent s2 fs2) :=
  C4_index_consistency c4wS c4wFS
    (open_establishes { logs := [], staging := none } rfl (by decide) c4wS c4wFS rfl).1

theorem openFold_error (fs : FS) : ∀ (ids : List Nat) (readers : List (Nat × Target × Nat))
    (index : List (Str × Pointer)) (rubbish : Nat) (i : Nat),
    i ∈ ids →
    (∀ j, j ∈ ids → (lookupA fs.logs j).isSome = true) →
    (∀ j c, j ∈ ids → j ≠ i → lookupA fs.logs j = some c → (decodeAllR c).isSome = true) →
    (∀ c, lookupA fs.logs i = some c → decodeAllR c = none) →
    openFold fs ids readers index rubbish = .error .Serde := by
  intro ids
  induction ids with
  | nil =>
    intro readers index rubbish i hi
    simp at hi
  | cons j rest ih =>
    intro readers index rubbish i hi hall hgood hbad
    obtain ⟨c, hc⟩ := Option.isSome_iff_exists.mp (hall j (by simp))
    unfold openFold
    rw [hc]
    simp only []
    by_cases hji : j = i
    · subst hji
      rw [loadData_eq, hbad c hc]
    · obtain ⟨rs, hrs⟩ := Option.isSome_iff_exists.mp (hgood j c (by simp) hji hc)
      rw [loadData_eq, hrs]
      simp only []
      refine ih _ _ _ i ?_ ?_ ?_ hbad
      · rcases List.mem_cons.mp hi with h | h
        · exact absurd h.symm hji
        · exact h
      · intro j2 hj2
        exact hall j2 (by simp [hj2])
      · intro j2 c2 hj2 hne hl
        exact hgood j2 c2 (by simp [hj2]) hne hl

/-- C5 counterexample: on a directory whose only segment ends with a
truncated record while everything before the truncation decodes cleanly,
open does not succeed: load_data propagates the decode failure, so open
fails with Serde instead of treating the bad tail as end-of-stream. -/
theorem C5_counterexample :
    KvStore.openStore c5Dir = .error KvError.Serde ∧
    decodeAllR (encodeOp (.Set ['a'] ['b'])) = some [(.Set ['a'] ['b'], 17)] ∧
    (encodeOp (.Set ['c'] ['d'])).take 5 ≠ [] ∧
    decodeOne ((encodeOp (.Set ['c'] ['d'])).take 5) = none :=
  ⟨rfl, rfl, by decide, rfl⟩

/-- C5 (amended): for every directory without a staging file in which some
segment consists of cleanly decoding records followed by a non-empty
undecodable tail, and every other segment decodes cleanly, open FAILS with
Serde: replay does not stop at the first decode failure in the tail, it
aborts open, contrary to the spec's required recovery behaviour. -/
theorem C5_truncated_tail (fs : FS) (hstag : fs.staging = none)
    (i : Nat) (ops : List Operation) (t : Str)
    (hlog : lookupA fs.logs i = some (encJoin ops ++ t))
    (htne : t ≠ []) (htbad : decodeOne t = none)
    (hrest : ∀ j c, j ≠ i → lookupA fs.logs j = some c → (decodeAllR c).isSome = true) :
    KvStore.openStore fs = .error KvError.Serde := by
  have hbadc : ∀ c, lookupA fs.logs i = some c → decodeAllR c = none := by
    intro c hcl
    rw [hlog] at hcl
    injection hcl with hcl2
    rw [← hcl2]
    exact decodeAllR_bad_tail (encJoin ops) (recsOf ops) (decodeAllR_encJoin ops) t htne htbad
  have himem : i ∈ sortLog fs :=
    ((sortIds_perm _).mem_iff).mpr (lookupA_some_mem _ _ _ hlog)
  have hfold : openFold fs (sortLog fs) [] [] 0 = .error .Serde := by
    refine openFold_error fs (sortLog fs) [] [] 0 i himem ?_ ?_ hbadc
    · intro j hj
      exact mem_lookupA_isSome _ _ (((sortIds_perm _).mem_iff).mp hj)
    · intro j c hj hne hl
      exact hrest j c hne hl
  unfold KvStore.openStore
  rw [hstag]
  simp only []
  rw [hfold]

/-- Witness for C5 at a concrete input: a directory whose only segment holds
one clean record and a 5-byte truncated tail. -/
theorem C5_truncated_tail_witness :
    KvStore.openStore c5wDir = .error KvError.Serde :=
  C5_truncated_tail c5wDir rfl 3 [.Set ['a'] ['b']] ((encodeOp (.Set ['c'] ['d'])).take 5)
    rfl (by decide) rfl
    (by
      intro j c hne hl
      simp [c5wDir, lookupA, hne] at hl)

theorem Mof_write_active (s : KvStore) (fs : FS) (key value : Str) (hInv : StoreInv s fs)
    (ca : Str) (hca : lookupA fs.logs s.fid = some ca) :
    Mof (fs.writeTarget s.writer.target (encodeOp (.Set key value))) =
      insertA (Mof fs) key value := by
  have hwt := hInv.writerTarget
  obtain ⟨rsa, hrsa⟩ := Option.isSome_iff_exists.mp (hInv.logsWF s.fid ca hca)
  have hAW := allRecs_write_active fs s.fid ca (Operation.Set key value) hInv.nodupLogs hca
    rsa hrsa hInv.fidMax
  rw [hwt]
  unfold Mof
  rw [hAW, applyRecs_append]
  rfl

theorem set_M (s : KvStore) (fs : FS) (key value : Str) (hInv : StoreInv s fs) :
    ∃ s2 fs2, s.set fs key value = (.ok (), s2, fs2) ∧ StoreInv s2 fs2 ∧
      lookupA (Mof fs2) key = some value := by
  obtain ⟨ca, hca, hpos⟩ := hInv.activeContent
  have hmid := mid_inv s fs key value hInv ca hca hpos
  have hM2 : Mof (fs.writeTarget s.writer.target (encodeOp (.Set key value))) =
      insertA (Mof fs) key value := Mof_write_active s fs key value hInv ca hca
  have hbr : ∀ rub, ∃ s2 fs2,
      (if COMPACT_THRESHOLD ≤ rub then
        KvStore.compact
          ⟨s.readers, ⟨s.writer.target,
              s.writer.pos + (encodeOp (Operation.Set key value)).length⟩,
            insertA s.index key
              ⟨s.fid, s.writer.pos, (encodeOp (Operation.Set key value)).length⟩,
            s.fid, rub⟩
          (fs.writeTarget s.writer.target (encodeOp (Operation.Set key value)))
      else
        if SINGLE_LOG_SIZE ≤ s.writer.pos then
          (Except.ok (),
            ⟨(newLogFile (s.fid + 1)
                (fs.writeTarget s.writer.target (encodeOp (Operation.Set key value)))
                s.readers).2.2,
              (newLogFile (s.fid + 1)
                (fs.writeTarget s.writer.target (encodeOp (Operation.Set key value)))
                s.readers).1,
              insertA s.index key
                ⟨s.fid, s.writer.pos, (encodeOp (Operation.Set key value)).length⟩,
              s.fid + 1, rub⟩,
            (newLogFile (s.fid + 1)
              (fs.writeTarget s.writer.target (encodeOp (Operation.Set key value)))
              s.readers).2.1)
        else
          (Except.ok (),
            ⟨s.readers, ⟨s.writer.target,
                s.writer.pos + (encodeOp (Operation.Set key value)).length⟩,
              insertA s.index key
                ⟨s.fid, s.writer.pos, (encodeOp (Operation.Set key value)).length⟩,
              s.fid, rub⟩,
            fs.writeTarget s.writer.target (encodeOp (Operation.Set key value)))) =
        (.ok (), s2, fs2) ∧ StoreInv s2 fs2 ∧ lookupA (Mof fs2) key = some value := by
    intro rub
    by_cases hcomp : COMPACT_THRESHOLD ≤ rub
    · rw [if_pos hcomp]
      obtain ⟨s2, fs2, hc, hI, hM⟩ := compact_sem _ _ (hmid rub)
      refine ⟨s2, fs2, hc, hI, ?_⟩
      rw [hM key, hM2, lookupA_insertA_self]
    · rw [if_neg hcomp]
      by_cases hroll : SINGLE_LOG_SIZE ≤ s.writer.pos
      · rw [if_pos hroll]
        have Imid := hmid rub
        have hfresh : lookupA
            (fs.writeTarget s.writer.target (encodeOp (Operation.Set key value))).logs
            (s.fid + 1) = none := by
          cases h : lookupA
              (fs.writeTarget s.writer.target (encodeOp (Operation.Set key value))).logs
              (s.fid + 1) with
          | none => rfl
          | some c =>
            have h2 := Imid.fidMax (s.fid + 1) (by simp [h])
            simp only [] at h2
            omega
        have hNLF : newLogFile (s.fid + 1)
            (fs.writeTarget s.writer.target (encodeOp (Operation.Set key value))) s.readers =
            (⟨Target.log (s.fid + 1), 0⟩,
              { fs.writeTarget s.writer.target (encodeOp (Operation.Set key value)) with
                  logs := insertA
                    (fs.writeTarget s.writer.target (encodeOp (Operation.Set key value))).logs
                    (s.fid + 1) [] },
              insertA s.readers (s.fid + 1) (Target.log (s.fid + 1), 0)) := by
          unfold newLogFile
          rw [hfresh]
        obtain ⟨hInvNew, hMeq⟩ := newLog_inv
          (fs.writeTarget s.writer.target (encodeOp (Operation.Set key value)))
          s.readers
          (insertA s.index key
            ⟨s.fid, s.writer.pos, (encodeOp (Operation.Set key value)).length⟩)
          (s.fid + 1)
          Imid.staging hfresh
          (fun i hi => Nat.lt_succ_of_le (Imid.fidMax i hi))
          Imid.readersLogs Imid.readersTarget Imid.readersNodup
          Imid.logsWF Imid.nodupLogs Imid.indexGood Imid.indexNone
        rw [hNLF]
        refine ⟨_, _, rfl, hInvNew rub, ?_⟩
        rw [hMeq, hM2, lookupA_insertA_self]
      · rw [if_neg hroll]
        exact ⟨_, _, rfl, hmid rub, by rw [hM2, lookupA_insertA_self]⟩
  unfold KvStore.set
  simp only []
  cases hold : lookupA s.index key with
  | some old =>
    simp only [hold]
    exact hbr (s.rubbish + old.len)
  | none =>
    simp only [hold]
    exact hbr s.rubbish

/-- C7: remove of an absent key fails with KeyNotFound and leaves the store
and the segment files entirely unchanged, for every store state; and from
any well-formed store, set(k, v) succeeds, a first remove(k) succeeds, and
the second remove(k) in a row fails with KeyNotFound, again leaving store
and files unchanged. -/
theorem C7_remove_missing_key (s : KvStore) (fs : FS) (key value : Str)
    (hInv : StoreInv s fs) :
    (∀ (s0 : KvStore) (fs0 : FS) (k : Str), lookupA s0.index k = none →
      s0.remove fs0 k = (.error .KeyNotFound, s0, fs0)) ∧
    (∃ s1 fs1 s2 fs2, s.set fs key value = (.ok (), s1, fs1) ∧
      s1.remove fs1 key = (.ok (), s2, fs2) ∧
      s2.remove fs2 key = (.error .KeyNotFound, s2, fs2)) := by
  have habs : ∀ (s0 : KvStore) (fs0 : FS) (k : Str), lookupA s0.index k = none →
      s0.remove fs0 k = (.error .KeyNotFound, s0, fs0) := by
    intro s0 fs0 k h
    unfold KvStore.remove KvStore.removeW
    rw [h]
  refine ⟨habs, ?_⟩
  obtain ⟨s1, fs1, hset, hI1, hM1⟩ := set_M s fs key value hInv
  cases hold1 : lookupA s1.index key with
  | none =>
    rw [hI1.indexNone key hold1] at hM1
    exact Option.noConfusion hM1
  | some old =>
    have hrm1 : s1.remove fs1 key = (.ok (),
        ⟨s1.readers, ⟨s1.writer.target, s1.writer.pos + (encodeOp (.Rm key)).length⟩,
          eraseA s1.index key, s1.fid,
          s1.rubbish + old.len + (encodeOp (.Rm key)).length⟩,
        fs1.writeTarget s1.writer.target (encodeOp (.Rm key))) := by
      unfold KvStore.remove KvStore.removeW
      rw [hold1]
      rfl
    refine ⟨s1, fs1, _, _, hset, hrm1, ?_⟩
    apply habs
    simp only []
    exact lookupA_eraseA_self s1.index key

/-- Witness for C7 at a concrete input: the store obtained by opening the
empty directory, with key k and value v. -/
theorem C7_remove_missing_key_witness :
    (∀ (s0 : KvStore) (fs0 : FS) (k : Str), lookupA s0.index k = none →
      s0.remove fs0 k = (.error .KeyNotFound, s0, fs0)) ∧
    (∃ s1 fs1 s2 fs2, c7wS.set c7wFS ['k'] ['v'] = (.ok (), s1, fs1) ∧
      s1.remove fs1 ['k'] = (.ok (), s2, fs2) ∧
      s2.remove fs2 ['k'] = (.error .KeyNotFound, s2, fs2)) :=
  C7_remove_missing_key c7wS c7wFS ['k'] ['v']
    (open_establishes { logs := [], staging := none } rfl (by decide) c7wS c7wFS rfl).1

theorem escape_replicate_x (n : Nat) :
    escape (List.replicate n 'x') = List.replicate n 'x' := by
  induction n with
  | zero => rfl
  | succ m ih => simp [List.replicate_succ, escape, ih]

theorem encodeOp_set_len (k v : Str) :
    (encodeOp (.Set k v)).length = 15 + (escape k).length + (escape v).length := by
  simp only [encodeOp, List.length_append, List.length_cons, List.length_nil]
  omega

theorem c8bigv_escape_len : (escape c8bigv).length = SINGLE_LOG_SIZE - 16 := by
  unfold c8bigv
  rw [escape_replicate_x]
  simp

theorem c8content_len : c8content.length = SINGLE_LOG_SIZE := by
  have h1 : c8content.length = 15 + (escape ['a']).length + (escape c8bigv).length := by
    unfold c8content
    rw [encodeOp_set_len]
  rw [h1, c8bigv_escape_len, show escape ['a'] = ['a'] from rfl]
  simp only [List.length_cons, List.length_nil]
  unfold SINGLE_LOG_SIZE
  omega

theorem c8_decodeAll : decodeAllR c8content =
    some [(.Set ['a'] c8bigv, c8content.length)] :=
  decodeAllR_single (.Set ['a'] c8bigv)

theorem c8_recsOfLog : recsOfLog c8fs 3 = [(.Set ['a'] c8bigv, c8content.length)] := by
  unfold recsOfLog
  rw [show lookupA c8fs.logs 3 = some c8content from rfl]
  simp only [Option.getD_some]
  rw [c8_decodeAll]
  rfl

theorem c8_Mof : Mof c8fs = [(['a'], c8bigv)] := by
  unfold Mof allRecs
  rw [show sortLog c8fs = [3] from rfl]
  simp only [List.map_cons, List.map_nil]
  rw [c8_recsOfLog]
  simp [applyRecs, applyOp, insertA]

theorem c8_inv : StoreInv c8s c8fs := by
  refine ⟨rfl, rfl, ?_, ?_, ?_, ?_, ?_, ?_, ?_, ?_, ?_⟩
  · exact ⟨c8content, rfl, c8content_len.symm⟩
  · intro i
    by_cases hi : i = 3 <;> simp [c8s, c8fs, lookupA, hi]
  · intro i t c hl
    by_cases hi : i = 3
    · subst hi
      simp [c8s, lookupA] at hl
      exact hl.1.symm
    · simp [c8s, lookupA, hi] at hl
  · decide
  · intro i content hc
    by_cases hi : i = 3
    · subst hi
      simp only [c8fs, lookupA, if_pos rfl] at hc
      injection hc with hc2
      rw [← hc2, c8_decodeAll]
      rfl
    · simp [c8fs, lookupA, hi] at hc
  · intro i hi2
    by_cases hi : i = 3
    · subst hi
      decide
    · simp [c8fs, lookupA, hi] at hi2
  · decide
  · intro k p hl
    by_cases hk : k = ['a']
    · subst hk
      simp only [c8s, lookupA, if_pos rfl] at hl
      injection hl with hl2
      subst hl2
      refine ⟨c8bigv, ⟨c8content, rfl, ?_⟩, ?_⟩
      · unfold sliceDec
        simp only []
        rw [List.drop_zero, ← c8content_len, List.take_length]
        have hd := decodeOne_encodeOp (.Set ['a'] c8bigv) []
        rw [List.append_nil] at hd
        exact hd
      · rw [c8_Mof]
        simp [lookupA]
    · simp [c8s, lookupA, hk] at hl
  · intro k hl
    by_cases hk : k = ['a']
    · subst hk
      simp [c8s, lookupA] at hl
    · rw [c8_Mof]
      simp [lookupA, hk]

theorem compact_parts (s : KvStore) (fs : FS) (s2 : KvStore) (fs2 : FS)
    (h : s.compact fs = (.ok (), s2, fs2)) :
    s2.fid = 2 ∧ s2.writer = ⟨Target.log 2, 0⟩ := by
  unfold KvStore.compact at h
  split at h
  · exact absurd (congrArg (fun w => w.1) h) (by simp)
  · simp only [] at h
    split at h
    · exact absurd (congrArg (fun w => w.1) h) (by simp)
    · split at h
      · exact absurd (congrArg (fun w => w.1) h) (by simp)
      · rename_i x2 temp sm heqm x1 a fs3 heqd x0 content2 heqs
        have h2 := congrArg (fun w => w.2.1) h
        simp only [] at h2
        rw [← h2]
        obtain ⟨hw1, _, _⟩ := newLogFile_parts 2
          { logs := insertA fs3.logs 1 content2, staging := none }
          (insertA [] 1 (Target.log 1, 0))
        exact ⟨rfl, hw1⟩

theorem set_compact_branch (s : KvStore) (fs : FS) (key value : Str) (old : Pointer)
    (hold : lookupA s.index key = some old)
    (hcomp : COMPACT_THRESHOLD ≤ s.rubbish + old.len) :
    s.set fs key value =
      KvStore.compact
        ⟨s.readers, ⟨s.writer.target, s.writer.pos + (encodeOp (.Set key value)).length⟩,
          insertA s.index key ⟨s.fid, s.writer.pos, (encodeOp (.Set key value)).length⟩,
          s.fid, s.rubbish + old.len⟩
        (fs.writeTarget s.writer.target (encodeOp (.Set key value))) := by
  unfold KvStore.set
  simp only []
  rw [hold]
  simp only []
  rw [if_pos hcomp]

/-- C8 counterexample: the rollover claim omits the compaction guard. The
state c8s satisfies the store invariant, its writer position is exactly
SINGLE_LOG_SIZE, and the overwrite pushes rubbish to COMPACT_THRESHOLD, so
the successful set runs compaction instead of rolling the segment: the
resulting active id is 2, not the incremented previous id, and the writer is
not over segment fid+1. -/
theorem C8_counterexample :
    StoreInv c8s c8fs ∧
    SINGLE_LOG_SIZE ≤ c8s.writer.pos ∧
    ∃ s2 fs2, c8s.set c8fs ['a'] ['c'] = (.ok (), s2, fs2) ∧
      s2.fid = 2 ∧ s2.fid ≠ c8s.fid + 1 ∧ s2.writer.target ≠ Target.log (c8s.fid + 1) := by
  refine ⟨c8_inv, by decide, ?_⟩
  have hseteq := set_compact_branch c8s c8fs ['a'] ['c'] ⟨3, 0, SINGLE_LOG_SIZE⟩ rfl (by decide)
  obtain ⟨ca, hca, hpos⟩ := c8_inv.activeContent
  have hmid := mid_inv c8s c8fs ['a'] ['c'] c8_inv ca hca hpos
    (c8s.rubbish + (Pointer.mk 3 0 SINGLE_LOG_SIZE).len)
  obtain ⟨s2, fs2, hc, hI, hM⟩ := compact_sem _ _ hmid
  obtain ⟨hfid, hwr⟩ := compact_parts _ _ _ _ hc
  refine ⟨s2, fs2, ?_, hfid, ?_, ?_⟩
  · rw [hseteq]
    exact hc
  · rw [hfid]
    decide
  · rw [hwr]
    decide

/-- C8 (amended): the active segment rolls over after a successful set only
when the compaction guard does not fire first, and the position the code
tests is the pre-write writer position. From any well-formed store whose
pre-write position is at least SINGLE_LOG_SIZE and whose post-update rubbish
stays below COMPACT_THRESHOLD, set succeeds, the active id is incremented by
1, an empty segment file with the new id is created, a reader for it is
inserted into the pool, and the writer is replaced by a writer over the new
segment at position 0. C8_counterexample refutes the unconditional claim:
when rubbish reaches COMPACT_THRESHOLD, compaction runs instead. -/
theorem C8_rollover (s : KvStore) (fs : FS) (key value : Str) (hInv : StoreInv s fs)
    (hroll : SINGLE_LOG_SIZE ≤ s.writer.pos)
    (hrub : ∀ old, lookupA s.index key = some old → s.rubbish + old.len < COMPACT_THRESHOLD)
    (hrub2 : s.rubbish < COMPACT_THRESHOLD) :
    ∃ s2 fs2, s.set fs key value = (.ok (), s2, fs2) ∧
      s2.fid = s.fid + 1 ∧
      lookupA fs2.logs (s.fid + 1) = some [] ∧
      lookupA s2.readers (s.fid + 1) = some (Target.log (s.fid + 1), 0) ∧
      s2.writer = ⟨Target.log (s.fid + 1), 0⟩ := by
  obtain ⟨ca, hca, hpos⟩ := hInv.activeContent
  have hbr : ∀ rub, rub < COMPACT_THRESHOLD → ∃ s2 fs2,
      (if COMPACT_THRESHOLD ≤ rub then
        KvStore.compact
          ⟨s.readers, ⟨s.writer.target,
              s.writer.pos + (encodeOp (Operation.Set key value)).length⟩,
            insertA s.index key
              ⟨s.fid, s.writer.pos, (encodeOp (Operation.Set key value)).length⟩,
            s.fid, rub⟩
          (fs.writeTarget s.writer.target (encodeOp (Operation.Set key value)))
      else
        if SINGLE_LOG_SIZE ≤ s.writer.pos then
          (Except.ok (),
            ⟨(newLogFile (s.fid + 1)
                (fs.writeTarget s.writer.target (encodeOp (Operation.Set key value)))
                s.readers).2.2,
              (newLogFile (s.fid + 1)
                (fs.writeTarget s.writer.target (encodeOp (Operation.Set key value)))
                s.readers).1,
              insertA s.index key
                ⟨s.fid, s.writer.pos, (encodeOp (Operation.Set key value)).length⟩,
              s.fid + 1, rub⟩,
            (newLogFile (s.fid + 1)
              (fs.writeTarget s.writer.target (encodeOp (Operation.Set key value)))
              s.readers).2.1)
        else
          (Except.ok (),
            ⟨s.readers, ⟨s.writer.target,
                s.writer.pos + (encodeOp (Operation.Set key value)).length⟩,
              insertA s.index key
                ⟨s.fid, s.writer.pos, (encodeOp (Operation.Set key value)).length⟩,
              s.fid, rub⟩,
            fs.writeTarget s.writer.target (encodeOp (Operation.Set key value)))) =
        (.ok (), s2, fs2) ∧
      s2.fid = s.fid + 1 ∧
      lookupA fs2.logs (s.fid + 1) = some [] ∧
      lookupA s2.readers (s.fid + 1) = some (Target.log (s.fid + 1), 0) ∧
      s2.writer = ⟨Target.log (s.fid + 1), 0⟩ := by
    intro rub hrubb
    rw [if_neg (not_le.mpr hrubb), if_pos hroll]
    have Imid := mid_inv s fs key value hInv ca hca hpos rub
    have hfresh : lookupA
        (fs.writeTarget s.writer.target (encodeOp (Operation.Set key value))).logs
        (s.fid + 1) = none := by
      cases h : lookupA
          (fs.writeTarget s.writer.target (encodeOp (Operation.Set key value))).logs
          (s.fid + 1) with
      | none => rfl
      | some c =>
        have h2 := Imid.fidMax (s.fid + 1) (by simp [h])
        simp only [] at h2
        omega
    have hNLF : newLogFile (s.fid + 1)
        (fs.writeTarget s.writer.target (encodeOp (Operation.Set key value))) s.readers =
        (⟨Target.log (s.fid + 1), 0⟩,
          { fs.writeTarget s.writer.target (encodeOp (Operation.Set key value)) with
              logs := insertA
                (fs.writeTarget s.writer.target (encodeOp (Operation.Set key value))).logs
                (s.fid + 1) [] },
          insertA s.readers (s.fid + 1) (Target.log (s.fid + 1), 0)) := by
      unfold newLogFile
      rw [hfresh]
    rw [hNLF]
    refine ⟨_, _, rfl, rfl, ?_, ?_, rfl⟩
    · simp only []
      exact lookupA_insertA_self _ _ _
    · simp only []
      exact lookupA_insertA_self _ _ _
  unfold KvStore.set
  simp only []
  cases hold : lookupA s.index key with
  | some old =>
    simp only [hold]
    exact hbr (s.rubbish + old.len) (hrub old hold)
  | none =>
    simp only [hold]
    exact hbr s.rubbish hrub2

/-- Witness for the amended C8 at a concrete input: the 1 MiB store c8s with
a key absent from the index, so that rubbish stays at 0 and the pre-write
position SINGLE_LOG_SIZE triggers the rollover. -/
theorem C8_rollover_witness :
    ∃ s2 fs2, c8s.set c8fs ['b'] ['c'] = (.ok (), s2, fs2) ∧
      s2.fid = c8s.fid + 1 ∧
      lookupA fs2.logs (c8s.fid + 1) = some [] ∧
      lookupA s2.readers (c8s.fid + 1) = some (Target.log (c8s.fid + 1), 0) ∧
      s2.writer = ⟨Target.log (c8s.fid + 1), 0⟩ :=
  C8_rollover c8s c8fs ['b'] ['c'] c8_inv (by decide)
    (by
      intro old h
      simp [c8s, lookupA] at h)
    (by decide)

/-- C9: get is read-only. For every store state, directory and key,
regardless of which result get returns, the index, the rubbish counter, the
writer (hence its position), and the active segment id are unchanged; the
reader pool keeps exactly the same file ids and each reader keeps its
target, so only reader cursor positions can move. The directory itself is
untouched: the embedding of get returns no new directory because the source
function performs no file writes. -/
theorem C9_get_readonly (s : KvStore) (fs : FS) (key : Str) :
    (s.get fs key).2.index = s.index ∧
    (s.get fs key).2.rubbish = s.rubbish ∧
    (s.get fs key).2.writer = s.writer ∧
    (s.get fs key).2.fid = s.fid ∧
    (s.get fs key).2.readers.map Prod.fst = s.readers.map Prod.fst ∧
    (∀ i, (lookupA (s.get fs key).2.readers i).map Prod.fst =
      (lookupA s.readers i).map Prod.fst) := by
  obtain ⟨hidx, hwr, hfid, hrub, hpoint, hmapfst⟩ := get_frame s fs key
  exact ⟨hidx, hrub, hwr, hfid, hmapfst, hpoint⟩

/-- C10: remove of a present key is not atomic on error. The key is removed
from the index and the old location's length is added to rubbish before the
tombstone append is attempted, so when the append fails with an IO error
(modelled by the wok flag of removeW), remove returns the error while the
key is gone from the index, a subsequent get of the key returns Ok(None),
and the rubbish increment stands; the directory is unchanged. -/
theorem C10_remove_not_atomic (s : KvStore) (fs : FS) (key : Str) (old : Pointer)
    (hold : lookupA s.index key = some old) :
    s.removeW fs key false =
      (.error .IOErr,
        ⟨s.readers, s.writer, eraseA s.index key, s.fid, s.rubbish + old.len⟩, fs) ∧
    lookupA (⟨s.readers, s.writer, eraseA s.index key, s.fid,
      s.rubbish + old.len⟩ : KvStore).index key = none ∧
    ((⟨s.readers, s.writer, eraseA s.index key, s.fid,
      s.rubbish + old.len⟩ : KvStore).get fs key).1 = .ok none := by
  refine ⟨?_, ?_, ?_⟩
  · unfold KvStore.removeW
    rw [hold]
    rfl
  · simp only []
    exact lookupA_eraseA_self s.index key
  · unfold KvStore.get
    simp only []
    rw [lookupA_eraseA_self]

/-- Witness for C10 at a concrete input: removing the one present key while
the tombstone append fails. -/
theorem C10_remove_not_atomic_witness :
    c10wS.removeW c10wFS ['a'] false =
      (.error .IOErr,
        ⟨c10wS.readers, c10wS.writer, eraseA c10wS.index ['a'], c10wS.fid,
          c10wS.rubbish + (Pointer.mk 1 0 17).len⟩, c10wFS) ∧
    lookupA (⟨c10wS.readers, c10wS.writer, eraseA c10wS.index ['a'], c10wS.fid,
      c10wS.rubbish + (Pointer.mk 1 0 17).len⟩ : KvStore).index ['a'] = none ∧
    ((⟨c10wS.readers, c10wS.writer, eraseA c10wS.index ['a'], c10wS.fid,
      c10wS.rubbish + (Pointer.mk 1 0 17).len⟩ : KvStore).get c10wFS ['a']).1 = .ok none :=
  C10_remove_not_atomic c10wS c10wFS ['a'] ⟨1, 0, 17⟩ rfl
